import Mathlib

/-!
Verification of the Canvas-Flow hierarchical layout engine
(`calculateHierarchicalLayout` in the layout module) and of the
`DiagramRenderManager` queue-drain discipline.

The layout engine is embedded shallowly: JavaScript objects used as
string-keyed (resp. integer-keyed) dictionaries are modelled as
association lists with JavaScript assignment semantics (`setKey`:
update in place when the key exists, append otherwise).  All
dictionaries in the algorithm are built from the empty object solely
through such assignments, so their key lists are duplicate-free and
first-match lookup (`getKey`) coincides with object property lookup.
JavaScript numbers appearing here are integers throughout (levels are
small naturals, coordinates are integer multiples of 50), so `Nat`/`Int`
model them exactly; the only division, `-totalHeight / 2`, acts on an
even number and is exact.  `Object.entries` enumerates the string-keyed
dictionaries in insertion order (the node identifiers produced by the
application are non-integer-like strings) and the integer-keyed
`levelGroups` in ascending numeric key order, modelled by a sort.
-/

namespace CanvasFlow

/-- A canvas element as read by the layout engine: its identifier and the
optional drill-down parent reference.  The remaining application fields
(type, mermaidCode, x, y, scale, title, ...) are never read by
`calculateHierarchicalLayout` and are omitted.  `parentId` is either
absent or a generated (nonempty) element id, so `Option String` with
`none` for "absent" models the JavaScript truthiness test `!el.parentId`
faithfully. -/
structure CanvasElement where
  id : String
  parentId : Option String := none
  deriving Repr, DecidableEq

/-- A connection (directed edge) as read by the layout engine: source and
target element identifiers.  The `id` and `label` fields of the
application's `Connection` interface are ignored by layout. -/
structure Connection where
  fromId : String
  toId : String
  deriving Repr, DecidableEq

/-- One entry of the layout result, `{ id, x, y }`. -/
structure LayoutPos where
  id : String
  x : Int
  y : Int
  deriving Repr, DecidableEq

/-- JavaScript object property lookup `m[k]` on an association list:
first match wins (all maps below have duplicate-free keys). -/
def getKey {κ α : Type} [DecidableEq κ] : List (κ × α) → κ → Option α
  | [], _ => none
  | p :: rest, k => if p.1 = k then some p.2 else getKey rest k

/-- JavaScript object property assignment `m[k] = v`: update the entry in
place when the key is present, append a new entry otherwise. -/
def setKey {κ α : Type} [DecidableEq κ] : List (κ × α) → κ → α → List (κ × α)
  | [], k, v => [(k, v)]
  | p :: rest, k, v => if p.1 = k then (k, v) :: rest else p :: setKey rest k v

/-- State of step 1 of the algorithm: the outgoing-adjacency object `adj`
and the in-degree object `inDegree`. -/
structure AdjState where
  adj : List (String × List String)
  inDegree : List (String × Nat)
  deriving Repr

/-- Initialisation loop of step 1:
`elements.forEach(el => { adj[el.id] = []; inDegree[el.id] = 0; })`. -/
def initMaps (elements : List CanvasElement) : AdjState :=
  elements.foldl (fun s el => ⟨setKey s.adj el.id [], setKey s.inDegree el.id 0⟩) ⟨[], []⟩

/-- Body of the connection loop of step 1: when both endpoints have an
adjacency entry (`if (adj[conn.fromId] && adj[conn.toId])`), append the
target to the source's neighbour list and increment the target's
in-degree; otherwise the connection is dropped.  The inner `none` branch
is unreachable because `adj` and `inDegree` always carry the same keys. -/
def addConnection (s : AdjState) (conn : Connection) : AdjState :=
  match getKey s.adj conn.fromId, getKey s.adj conn.toId with
  | some fromList, some _ =>
    { adj := setKey s.adj conn.fromId (fromList ++ [conn.toId])
      inDegree :=
        match getKey s.inDegree conn.toId with
        | some d => setKey s.inDegree conn.toId (d + 1)
        | none => s.inDegree }
  | _, _ => s

/-- Step 1 of `calculateHierarchicalLayout`: build adjacency list and
in-degrees from the elements and connections. -/
def buildMaps (elements : List CanvasElement) (connections : List Connection) : AdjState :=
  connections.foldl addConnection (initMaps elements)

/-- Step 2, first half: the filter
`elements.filter(el => !el.parentId && inDegree[el.id] === 0)`. -/
def rootCandidates (elements : List CanvasElement) (inDegree : List (String × Nat)) :
    List CanvasElement :=
  elements.filter (fun el => el.parentId.isNone && decide (getKey inDegree el.id = some 0))

/-- Step 2, second half: when the filter is empty and the element list is
not, fall back to the first element as the sole root. -/
def rootsOf (elements : List CanvasElement) (inDegree : List (String × Nat)) :
    List CanvasElement :=
  let cands := rootCandidates elements inDegree
  if cands.isEmpty && !elements.isEmpty then elements.take 1 else cands

/-- An entry of the BFS work queue, `{ id, level }`. -/
structure QItem where
  id : String
  level : Nat
  deriving Repr, DecidableEq

/-- Result of the BFS loop: the `levels` object, the part of the queue
never dequeued (empty whenever the fuel sufficed, which is proved below),
and the number of dequeues performed (the final value of `head`). -/
structure BfsResult where
  levels : List (String × Nat)
  remaining : List QItem
  dequeues : Nat
  deriving Repr

/-- Body of the inner loop of a BFS step, for one `childId`:
`if (!visited.has(childId)) { visited.add(childId); queue.push({ id: childId, level: level + 1 }) }`.
The state carries the visited set and the items pushed so far. -/
def visitStep (level : Nat) (st : List String × List QItem) (childId : String) :
    List String × List QItem :=
  if childId ∈ st.1 then st
  else (st.1 ++ [childId], st.2 ++ [⟨childId, level + 1⟩])

/-- Inner loop of a BFS step: `(adj[id] || []).forEach(childId => ...)`.
Returns the grown visited set and the items pushed onto the queue. -/
def visitChildren (visited : List String) (children : List String) (level : Nat) :
    List String × List QItem :=
  children.foldl (visitStep level) (visited, [])

/-- The BFS loop `while (head < queue.length)`.  The JavaScript loop walks
an index `head` along a growing array; popping the front of the list of
not-yet-dequeued items and appending pushes at the back is the same
process.  `fuel` bounds the number of iterations; the caller passes
enough fuel (proved below), so the `fuel = 0` escape is never taken. -/
def bfsAux (adj : List (String × List String)) :
    Nat → List (String × Nat) → List String → List QItem → Nat → BfsResult
  | 0, levels, _, queue, cnt => ⟨levels, queue, cnt⟩
  | _ + 1, levels, _, [], cnt => ⟨levels, [], cnt⟩
  | fuel + 1, levels, visited, item :: rest, cnt =>
    let levels1 := setKey levels item.id item.level
    let vn := visitChildren visited ((getKey adj item.id).getD []) item.level
    bfsAux adj fuel levels1 vn.1 (rest ++ vn.2) (cnt + 1)

/-- Composed pipeline pieces of `calculateHierarchicalLayout`, named so
that theorems can speak about the intermediate states exactly as the
source computes them. -/
def adjOf (elements : List CanvasElement) (connections : List Connection) :
    List (String × List String) :=
  (buildMaps elements connections).adj

/-- The `inDegree` object produced by step 1. -/
def inDegreeOf (elements : List CanvasElement) (connections : List Connection) :
    List (String × Nat) :=
  (buildMaps elements connections).inDegree

/-- The `roots` array of step 2. -/
def layoutRoots (elements : List CanvasElement) (connections : List Connection) :
    List CanvasElement :=
  rootsOf elements (inDegreeOf elements connections)

/-- The initial queue `roots.map(r => ({ id: r.id, level: 0 }))`. -/
def initialQueue (elements : List CanvasElement) (connections : List Connection) :
    List QItem :=
  (layoutRoots elements connections).map (fun r => ⟨r.id, 0⟩)

/-- The initial visited set `queue.forEach(q => visited.add(q.id))`. -/
def initialVisited (elements : List CanvasElement) (connections : List Connection) :
    List String :=
  (initialQueue elements connections).foldl
    (fun v q => if q.id ∈ v then v else v ++ [q.id]) []

/-- The full BFS of step 3, run with fuel `|initial queue| + |elements|`,
which is proved sufficient below. -/
def layoutBFS (elements : List CanvasElement) (connections : List Connection) : BfsResult :=
  bfsAux (adjOf elements connections)
    ((initialQueue elements connections).length + elements.length)
    [] (initialVisited elements connections) (initialQueue elements connections) 0

/-- Body of the orphan-handling loop for one element:
`if (levels[el.id] === undefined) levels[el.id] = 0;`. -/
def orphanStep (lv : List (String × Nat)) (el : CanvasElement) : List (String × Nat) :=
  if getKey lv el.id = none then setKey lv el.id 0 else lv

/-- Step 4, orphan handling: `elements.forEach(el => { ... })`. -/
def fillOrphans (elements : List CanvasElement) (levels : List (String × Nat)) :
    List (String × Nat) :=
  elements.foldl orphanStep levels

/-- The final `levels` object after steps 3 and 4. -/
def layoutLevels (elements : List CanvasElement) (connections : List Connection) :
    List (String × Nat) :=
  fillOrphans elements (layoutBFS elements connections).levels

/-- One iteration of the grouping loop of step 5:
`if (!levelGroups[level]) levelGroups[level] = []; levelGroups[level].push(id)`. -/
def addToGroups (gs : List (Nat × List String)) (id : String) (level : Nat) :
    List (Nat × List String) :=
  match getKey gs level with
  | some bucket => setKey gs level (bucket ++ [id])
  | none => gs ++ [(level, [id])]

/-- The `levelGroups` object, built by iterating `Object.entries(levels)`
in insertion order. -/
def groupsOf (levels : List (String × Nat)) : List (Nat × List String) :=
  levels.foldl (fun gs p => addToGroups gs p.1 p.2) []

/-- Enumeration order of `Object.entries(levelGroups)`: the keys of
`levelGroups` are integer-like, so JavaScript enumerates them in
ascending numeric order, modelled by sorting the (duplicate-free-keyed)
association list by key. -/
def sortedGroups (gs : List (Nat × List String)) : List (Nat × List String) :=
  gs.insertionSort (fun a b => a.1 ≤ b.1)

/-- Layout constant `CARD_WIDTH = 750`. -/
def CARD_WIDTH : Int := 750

/-- Layout constant `CARD_HEIGHT = 600`. -/
def CARD_HEIGHT : Int := 600

/-- Layout constant `VERTICAL_GAP = 100`. -/
def VERTICAL_GAP : Int := 100

/-- Layout constant `HORIZONTAL_GAP = 200`. -/
def HORIZONTAL_GAP : Int := 200

/-- Placement of one rank bucket (the body of the
`Object.entries(levelGroups).forEach` loop): fixed column abscissa
`level * (CARD_WIDTH + HORIZONTAL_GAP)`, and the nodes stacked from
`-totalHeight / 2` in increments of `CARD_HEIGHT + VERTICAL_GAP`. -/
def placeGroup (level : Nat) (ids : List String) : List LayoutPos :=
  let x : Int := (level : Int) * (CARD_WIDTH + HORIZONTAL_GAP)
  let totalHeight : Int := (ids.length : Int) * CARD_HEIGHT + ((ids.length : Int) - 1) * VERTICAL_GAP
  let startY : Int := (-totalHeight) / 2
  ids.enum.map (fun p => ⟨p.2, x, startY + (p.1 : Int) * (CARD_HEIGHT + VERTICAL_GAP)⟩)

/-- The sorted `levelGroups` entries of the full pipeline. -/
def layoutGroups (elements : List CanvasElement) (connections : List Connection) :
    List (Nat × List String) :=
  sortedGroups (groupsOf (layoutLevels elements connections))

/-- The layout engine `calculateHierarchicalLayout`: early return on an
empty element list, then adjacency/in-degree construction, root
identification, BFS rank assignment, orphan handling, grouping by rank
and coordinate assignment. -/
def calculateHierarchicalLayout (elements : List CanvasElement)
    (connections : List Connection) : List LayoutPos :=
  if elements.length = 0 then []
  else (layoutGroups elements connections).foldl (fun acc g => acc ++ placeGroup g.1 g.2) []

/-- Specification-side in-degree, written from the spec's words for the
refinement comparison: the number of edges pointing at `i` "counting only
edges whose both endpoints exist in the node set". -/
def inDegreeSpec (elements : List CanvasElement) (connections : List Connection)
    (i : String) : Nat :=
  (connections.filter (fun c =>
    decide (c.fromId ∈ elements.map CanvasElement.id) &&
    decide (c.toId ∈ elements.map CanvasElement.id) &&
    decide (c.toId = i))).length

/-- The outgoing-neighbour list `adj[p] || []` of a node identifier. -/
def childrenOf (adj : List (String × List String)) (p : String) : List String :=
  (getKey adj p).getD []

/-- Proof-side measure: the number of identifiers of `ids` not yet in the
visited list `v`.  Each BFS dequeue pushes only previously unvisited
identifiers, so this measure pays for every queue growth. -/
def unseen (ids : List String) (v : List String) : Nat :=
  (ids.toFinset \ v.toFinset).card

namespace RenderManager

/-!
Transition-system model of `DiagramRenderManager`.  JavaScript is
single-threaded; suspension points (`await`) are where interleaving
happens.  A state records the manager's fields that govern scheduling —
`isProcessing` and the pending `renderQueue` — together with an
observation of the dynamics: `active` counts the drain loops currently
between their entry (`isProcessing = true` write) and their exit
(`isProcessing = false` write), `executed` logs the tasks run to
completion in order, and `arrived` logs every task ever queued in
arrival order.  Tasks are identified by numbers.  The transitions are
the code points of `render`/`processQueue`: queueing a task, a
`processQueue` call passing its guard (`isProcessing` false, queue
non-empty) and entering the `while` loop, an active loop shifting and
running the head task, and an active loop finding the queue empty and
exiting.  A `processQueue` call rejected by the guard changes nothing
and needs no transition. -/

/-- State of the render manager together with the drain-loop and task
observations. -/
structure RMState where
  isProcessing : Bool
  active : Nat
  queue : List Nat
  executed : List Nat
  arrived : List Nat
  deriving Repr, DecidableEq

/-- One scheduling step of the render manager. -/
inductive Step : RMState → RMState → Prop
  | enqueue (s : RMState) (t : Nat) :
      Step s { s with queue := s.queue ++ [t], arrived := s.arrived ++ [t] }
  | startDrain (s : RMState) (h : s.isProcessing = false) (hq : s.queue ≠ []) :
      Step s { s with isProcessing := true, active := s.active + 1 }
  | execTask (s : RMState) (t : Nat) (rest : List Nat) (h : s.active ≠ 0)
      (hq : s.queue = t :: rest) :
      Step s { s with queue := rest, executed := s.executed ++ [t] }
  | endDrain (s : RMState) (h : s.active ≠ 0) (hq : s.queue = []) :
      Step s { s with isProcessing := false, active := s.active - 1 }

/-- The singleton's initial state: not processing, empty queue. -/
def init : RMState := ⟨false, 0, [], [], []⟩

/-- States the render manager can reach from its initial state. -/
def Reachable (s : RMState) : Prop := Relation.ReflTransGen Step init s

end RenderManager

/-- Example node `A` of the spec's scenarios (no parent). -/
def exA : CanvasElement := ⟨"A", none⟩

/-- Example node `B` of the spec's scenarios (no parent). -/
def exB : CanvasElement := ⟨"B", none⟩

/-- Example node `C` of the spec's scenarios (no parent). -/
def exC : CanvasElement := ⟨"C", none⟩

/-- Node list `[A, B, C]` of the spec's example scenarios. -/
def chainNodes : List CanvasElement := [exA, exB, exC]

/-- Edge list `[A→B, B→C]` of scenario 1. -/
def chainEdges : List Connection := [⟨"A", "B"⟩, ⟨"B", "C"⟩]

/-- Edge list `[A→B, A→C]` of scenario 2. -/
def forkEdges : List Connection := [⟨"A", "B"⟩, ⟨"A", "C"⟩]

/-- The single node `X` of the self-loop scenario. -/
def exX : CanvasElement := ⟨"X", none⟩

/-- The self-loop edge `X→X`. -/
def selfLoopEdges : List Connection := [⟨"X", "X"⟩]

/-! ### Association-list (JavaScript object) lemmas -/

theorem getKey_setKey_self {κ α : Type} [DecidableEq κ] (m : List (κ × α)) (k : κ) (v : α) :
    getKey (setKey m k v) k = some v := by
  induction m with
  | nil => simp [setKey, getKey]
  | cons p rest ih =>
    by_cases h : p.1 = k
    · simp [setKey, h, getKey]
    · simp [setKey, h, getKey, ih]

theorem getKey_setKey_ne {κ α : Type} [DecidableEq κ] (m : List (κ × α)) (k k' : κ) (v : α)
    (h : k' ≠ k) : getKey (setKey m k v) k' = getKey m k' := by
  have hne : ¬ k = k' := fun h' => h h'.symm
  induction m with
  | nil => simp [setKey, getKey, hne]
  | cons p rest ih =>
    by_cases hp : p.1 = k
    · rw [setKey, if_pos hp, getKey, if_neg hne, getKey, hp, if_neg hne]
    · rw [setKey, if_neg hp, getKey, getKey]
      by_cases hp' : p.1 = k'
      · rw [if_pos hp', if_pos hp']
      · rw [if_neg hp', if_neg hp', ih]

theorem keys_setKey {κ α : Type} [DecidableEq κ] (m : List (κ × α)) (k : κ) (v : α) :
    (setKey m k v).map Prod.fst =
      if k ∈ m.map Prod.fst then m.map Prod.fst else m.map Prod.fst ++ [k] := by
  induction m with
  | nil => simp [setKey]
  | cons p rest ih =>
    by_cases h : p.1 = k
    · rw [setKey, if_pos h]
      have hmem : k ∈ (p :: rest).map Prod.fst := by simp [h]
      rw [if_pos hmem]
      simp [h]
    · rw [setKey, if_neg h]
      have hkp : ¬ k = p.1 := fun h' => h h'.symm
      simp only [List.map_cons, List.mem_cons, hkp, false_or]
      rw [ih]
      by_cases hk : k ∈ rest.map Prod.fst
      · rw [if_pos hk, if_pos hk]
      · rw [if_neg hk, if_neg hk, List.cons_append]

theorem mem_keys_setKey {κ α : Type} [DecidableEq κ] (m : List (κ × α)) (k : κ) (v : α) :
    k ∈ (setKey m k v).map Prod.fst := by
  rw [keys_setKey]
  by_cases h : k ∈ m.map Prod.fst <;> simp [h]

theorem keys_setKey_sub {κ α : Type} [DecidableEq κ] (m : List (κ × α)) (k k' : κ) (v : α)
    (h : k' ∈ (setKey m k v).map Prod.fst) : k' = k ∨ k' ∈ m.map Prod.fst := by
  rw [keys_setKey] at h
  by_cases hk : k ∈ m.map Prod.fst
  · rw [if_pos hk] at h
    exact Or.inr h
  · rw [if_neg hk] at h
    rcases List.mem_append.mp h with h | h
    · exact Or.inr h
    · exact Or.inl (List.mem_singleton.mp h)

theorem keys_setKey_sup {κ α : Type} [DecidableEq κ] (m : List (κ × α)) (k k' : κ) (v : α)
    (h : k' ∈ m.map Prod.fst) : k' ∈ (setKey m k v).map Prod.fst := by
  rw [keys_setKey]
  by_cases hk : k ∈ m.map Prod.fst
  · rw [if_pos hk]
    exact h
  · rw [if_neg hk]
    exact List.mem_append.mpr (Or.inl h)

theorem nodup_keys_setKey {κ α : Type} [DecidableEq κ] (m : List (κ × α)) (k : κ) (v : α)
    (h : (m.map Prod.fst).Nodup) : ((setKey m k v).map Prod.fst).Nodup := by
  rw [keys_setKey]
  by_cases hk : k ∈ m.map Prod.fst
  · simp [hk, h]
  · simp [hk, List.nodup_append, h]

theorem getKey_isSome_iff {κ α : Type} [DecidableEq κ] (m : List (κ × α)) (k : κ) :
    (getKey m k).isSome ↔ k ∈ m.map Prod.fst := by
  induction m with
  | nil => simp [getKey]
  | cons p rest ih =>
    by_cases h : p.1 = k
    · simp [getKey, h]
    · have : ¬ k = p.1 := fun h' => h h'.symm
      simp [getKey, h, ih, this]

theorem getKey_eq_none_iff {κ α : Type} [DecidableEq κ] (m : List (κ × α)) (k : κ) :
    getKey m k = none ↔ k ∉ m.map Prod.fst := by
  rw [← getKey_isSome_iff]
  cases getKey m k <;> simp

theorem mem_of_getKey_eq_some {κ α : Type} [DecidableEq κ] {m : List (κ × α)} {k : κ} {v : α}
    (h : getKey m k = some v) : (k, v) ∈ m := by
  induction m with
  | nil => simp [getKey] at h
  | cons p rest ih =>
    by_cases hp : p.1 = k
    · rw [getKey, if_pos hp] at h
      have hpkv : (k, v) = p := by
        cases p
        simp_all
      exact List.mem_cons.mpr (Or.inl hpkv)
    · rw [getKey, if_neg hp] at h
      exact List.mem_cons_of_mem _ (ih h)

theorem mem_keys_of_getKey_eq_some {κ α : Type} [DecidableEq κ] {m : List (κ × α)} {k : κ}
    {v : α} (h : getKey m k = some v) : k ∈ m.map Prod.fst := by
  rw [← getKey_isSome_iff, h]
  rfl

theorem getKey_eq_some_of_mem_nodup {κ α : Type} [DecidableEq κ] {m : List (κ × α)} {k : κ}
    {v : α} (hnd : (m.map Prod.fst).Nodup) (h : (k, v) ∈ m) : getKey m k = some v := by
  induction m with
  | nil => simp at h
  | cons p rest ih =>
    rw [List.map_cons, List.nodup_cons] at hnd
    rcases List.mem_cons.mp h with h | h
    · rw [← h]
      simp [getKey]
    · have hk : p.1 ≠ k := by
        intro hpk
        have hmem : k ∈ rest.map Prod.fst := List.mem_map.mpr ⟨(k, v), h, rfl⟩
        rw [hpk] at hnd
        exact hnd.1 hmem
      rw [getKey, if_neg hk]
      exact ih hnd.2 h

theorem setKey_decomp {κ α : Type} [DecidableEq κ] {m : List (κ × α)} {k : κ} {b : α} (v : α)
    (hm : getKey m k = some b) :
    ∃ l1 l2, m = l1 ++ (k, b) :: l2 ∧ setKey m k v = l1 ++ (k, v) :: l2 := by
  induction m with
  | nil => simp [getKey] at hm
  | cons p rest ih =>
    by_cases hp : p.1 = k
    · rw [getKey, if_pos hp] at hm
      refine ⟨[], rest, ?_, ?_⟩
      · cases p
        simp_all
      · simp [setKey, hp]
    · rw [getKey, if_neg hp] at hm
      obtain ⟨l1, l2, h1, h2⟩ := ih hm
      exact ⟨p :: l1, l2, by simp [h1], by simp [setKey, hp, h2]⟩

/-! ### Step 1: adjacency and in-degree construction -/

theorem initMaps_loop (es : List CanvasElement) (i : String) : ∀ s : AdjState,
    getKey (es.foldl (fun s el => ⟨setKey s.adj el.id [], setKey s.inDegree el.id 0⟩) s).adj i =
      (if i ∈ es.map CanvasElement.id then some [] else getKey s.adj i) ∧
    getKey (es.foldl (fun s el => ⟨setKey s.adj el.id [], setKey s.inDegree el.id 0⟩) s).inDegree i =
      (if i ∈ es.map CanvasElement.id then some 0 else getKey s.inDegree i) := by
  induction es with
  | nil => intro s; simp
  | cons el rest ih =>
    intro s
    rw [List.foldl_cons]
    obtain ⟨ih1, ih2⟩ := ih ⟨setKey s.adj el.id [], setKey s.inDegree el.id 0⟩
    constructor
    · rw [ih1]
      by_cases hr : i ∈ rest.map CanvasElement.id
      · have : i ∈ (el :: rest).map CanvasElement.id := by simp [hr]
        rw [if_pos hr, if_pos this]
      · rw [if_neg hr]
        by_cases he : i = el.id
        · have : i ∈ (el :: rest).map CanvasElement.id := by simp [he]
          rw [if_pos this, he, getKey_setKey_self]
        · have : i ∉ (el :: rest).map CanvasElement.id := by simp [he, hr]
          rw [if_neg this, getKey_setKey_ne _ _ _ _ he]
    · rw [ih2]
      by_cases hr : i ∈ rest.map CanvasElement.id
      · have : i ∈ (el :: rest).map CanvasElement.id := by simp [hr]
        rw [if_pos hr, if_pos this]
      · rw [if_neg hr]
        by_cases he : i = el.id
        · have : i ∈ (el :: rest).map CanvasElement.id := by simp [he]
          rw [if_pos this, he, getKey_setKey_self]
        · have : i ∉ (el :: rest).map CanvasElement.id := by simp [he, hr]
          rw [if_neg this, getKey_setKey_ne _ _ _ _ he]

theorem initMaps_adj_getKey (es : List CanvasElement) (i : String) :
    getKey (initMaps es).adj i = if i ∈ es.map CanvasElement.id then some [] else none :=
  (initMaps_loop es i ⟨[], []⟩).1

theorem initMaps_inDegree_getKey (es : List CanvasElement) (i : String) :
    getKey (initMaps es).inDegree i = if i ∈ es.map CanvasElement.id then some 0 else none :=
  (initMaps_loop es i ⟨[], []⟩).2

theorem buildMaps_loop (es : List CanvasElement) (cs : List Connection) : ∀ s : AdjState,
    (∀ i, (getKey s.adj i).isSome ↔ i ∈ es.map CanvasElement.id) →
    (∀ i l, getKey s.adj i = some l → ∀ x ∈ l, x ∈ es.map CanvasElement.id) →
    (∀ i, (getKey s.inDegree i).isSome ↔ i ∈ es.map CanvasElement.id) →
    (∀ i, (getKey (cs.foldl addConnection s).adj i).isSome ↔ i ∈ es.map CanvasElement.id) ∧
    (∀ i l, getKey (cs.foldl addConnection s).adj i = some l →
      ∀ x ∈ l, x ∈ es.map CanvasElement.id) ∧
    (∀ i d, getKey s.inDegree i = some d →
      getKey (cs.foldl addConnection s).inDegree i = some (d + inDegreeSpec es cs i)) := by
  induction cs with
  | nil =>
    intro s h1 h2 h3
    refine ⟨h1, h2, ?_⟩
    intro i d hd
    simp [inDegreeSpec, hd]
  | cons c rest ih =>
    intro s h1 h2 h3
    rw [List.foldl_cons]
    by_cases hfrom : c.fromId ∈ es.map CanvasElement.id
    · by_cases hto : c.toId ∈ es.map CanvasElement.id
      · -- both endpoints present: the connection is recorded
        obtain ⟨fl, hfl⟩ := Option.isSome_iff_exists.mp ((h1 c.fromId).mpr hfrom)
        obtain ⟨tl, htl⟩ := Option.isSome_iff_exists.mp ((h1 c.toId).mpr hto)
        obtain ⟨d0, hd0⟩ := Option.isSome_iff_exists.mp ((h3 c.toId).mpr hto)
        have hstep : addConnection s c =
            { adj := setKey s.adj c.fromId (fl ++ [c.toId]),
              inDegree := setKey s.inDegree c.toId (d0 + 1) } := by
          rw [addConnection, hfl, htl, hd0]
        rw [hstep]
        have hadjk : ∀ i, (getKey (setKey s.adj c.fromId (fl ++ [c.toId])) i).isSome ↔
            i ∈ es.map CanvasElement.id := by
          intro i
          by_cases hi : i = c.fromId
          · subst hi
            rw [getKey_setKey_self]
            simp [hfrom]
          · rw [getKey_setKey_ne _ _ _ _ hi]
            exact h1 i
        have hvals : ∀ i l, getKey (setKey s.adj c.fromId (fl ++ [c.toId])) i = some l →
            ∀ x ∈ l, x ∈ es.map CanvasElement.id := by
          intro i l hl x hx
          by_cases hi : i = c.fromId
          · subst hi
            rw [getKey_setKey_self] at hl
            cases hl
            rcases List.mem_append.mp hx with hx | hx
            · exact h2 _ _ hfl x hx
            · rw [List.mem_singleton.mp hx]
              exact hto
          · rw [getKey_setKey_ne _ _ _ _ hi] at hl
            exact h2 _ _ hl x hx
        have hdegk : ∀ i, (getKey (setKey s.inDegree c.toId (d0 + 1)) i).isSome ↔
            i ∈ es.map CanvasElement.id := by
          intro i
          by_cases hi : i = c.toId
          · subst hi
            rw [getKey_setKey_self]
            simp [hto]
          · rw [getKey_setKey_ne _ _ _ _ hi]
            exact h3 i
        obtain ⟨g1, g2, g3⟩ :=
          ih ⟨setKey s.adj c.fromId (fl ++ [c.toId]), setKey s.inDegree c.toId (d0 + 1)⟩
            hadjk hvals hdegk
        refine ⟨g1, g2, ?_⟩
        intro i d hd
        have hfrom' : ∃ a ∈ es, a.id = c.fromId := by simpa using hfrom
        have hto' : ∃ a ∈ es, a.id = c.toId := by simpa using hto
        by_cases hi : i = c.toId
        · subst hi
          have hdd : d = d0 := by
            rw [hd0] at hd
            injection hd with h
            exact h.symm
          subst hdd
          have hg := g3 c.toId (d + 1) (getKey_setKey_self _ _ _)
          rw [hg]
          have hcnt : inDegreeSpec es (c :: rest) c.toId = inDegreeSpec es rest c.toId + 1 := by
            simp [inDegreeSpec, List.filter_cons, hfrom', hto']
          rw [hcnt]
          exact congrArg some (by omega)
        · have hg := g3 i d (by rw [getKey_setKey_ne _ _ _ _ hi, hd])
          rw [hg]
          have hti : ¬ c.toId = i := fun h => hi h.symm
          have hcnt : inDegreeSpec es (c :: rest) i = inDegreeSpec es rest i := by
            simp [inDegreeSpec, List.filter_cons, hti]
          rw [hcnt]
      · -- dangling target: the connection is dropped
        have hstep : addConnection s c = s := by
          have : getKey s.adj c.toId = none := by
            rcases h : getKey s.adj c.toId with _ | l
            · rfl
            · exact absurd ((h1 c.toId).mp (by rw [h]; rfl)) hto
          rw [addConnection, this]
          rcases getKey s.adj c.fromId <;> rfl
        rw [hstep]
        obtain ⟨g1, g2, g3⟩ := ih s h1 h2 h3
        refine ⟨g1, g2, ?_⟩
        intro i d hd
        rw [g3 i d hd]
        have hto' : ¬ ∃ a ∈ es, a.id = c.toId := by simpa using hto
        have hcnt : inDegreeSpec es (c :: rest) i = inDegreeSpec es rest i := by
          simp [inDegreeSpec, List.filter_cons, hto']
        rw [hcnt]
    · -- dangling source: the connection is dropped
      have hstep : addConnection s c = s := by
        have : getKey s.adj c.fromId = none := by
          rcases h : getKey s.adj c.fromId with _ | l
          · rfl
          · exact absurd ((h1 c.fromId).mp (by rw [h]; rfl)) hfrom
        rw [addConnection, this]
      rw [hstep]
      obtain ⟨g1, g2, g3⟩ := ih s h1 h2 h3
      refine ⟨g1, g2, ?_⟩
      intro i d hd
      rw [g3 i d hd]
      have hfrom' : ¬ ∃ a ∈ es, a.id = c.fromId := by simpa using hfrom
      have hcnt : inDegreeSpec es (c :: rest) i = inDegreeSpec es rest i := by
        simp [inDegreeSpec, List.filter_cons, hfrom']
      rw [hcnt]

theorem buildMaps_facts (es : List CanvasElement) (cs : List Connection) :
    (∀ i, (getKey (buildMaps es cs).adj i).isSome ↔ i ∈ es.map CanvasElement.id) ∧
    (∀ i l, getKey (buildMaps es cs).adj i = some l →
      ∀ x ∈ l, x ∈ es.map CanvasElement.id) ∧
    (∀ i, i ∈ es.map CanvasElement.id →
      getKey (buildMaps es cs).inDegree i = some (inDegreeSpec es cs i)) := by
  have h1 : ∀ i, (getKey (initMaps es).adj i).isSome ↔ i ∈ es.map CanvasElement.id := by
    intro i
    rw [initMaps_adj_getKey]
    by_cases hi : i ∈ es.map CanvasElement.id <;> simp [hi]
  have h2 : ∀ i l, getKey (initMaps es).adj i = some l →
      ∀ x ∈ l, x ∈ es.map CanvasElement.id := by
    intro i l hl x hx
    rw [initMaps_adj_getKey] at hl
    by_cases hi : i ∈ es.map CanvasElement.id
    · rw [if_pos hi] at hl
      cases hl
      simp at hx
    · rw [if_neg hi] at hl
      cases hl
  have h3 : ∀ i, (getKey (initMaps es).inDegree i).isSome ↔ i ∈ es.map CanvasElement.id := by
    intro i
    rw [initMaps_inDegree_getKey]
    by_cases hi : i ∈ es.map CanvasElement.id <;> simp [hi]
  obtain ⟨g1, g2, g3⟩ := buildMaps_loop es cs (initMaps es) h1 h2 h3
  refine ⟨g1, g2, ?_⟩
  intro i hi
  have h0 : getKey (initMaps es).inDegree i = some 0 := by
    rw [initMaps_inDegree_getKey, if_pos hi]
  have := g3 i 0 h0
  rw [Nat.zero_add] at this
  exact this

theorem inDegreeOf_eq_spec (es : List CanvasElement) (cs : List Connection) (i : String)
    (h : i ∈ es.map CanvasElement.id) :
    getKey (inDegreeOf es cs) i = some (inDegreeSpec es cs i) :=
  (buildMaps_facts es cs).2.2 i h

theorem childrenOf_sub (es : List CanvasElement) (cs : List Connection) (p : String) :
    ∀ x ∈ childrenOf (adjOf es cs) p, x ∈ es.map CanvasElement.id := by
  intro x hx
  rw [childrenOf] at hx
  rcases h : getKey (adjOf es cs) p with _ | l
  · rw [h] at hx
    simp at hx
  · rw [h] at hx
    exact (buildMaps_facts es cs).2.1 p l h x hx

/-! ### BFS helper lemmas -/

theorem visitChildren_loop (level : Nat) : ∀ (children v : List String) (acc : List QItem),
    ∃ delta : List String,
      children.foldl (visitStep level) (v, acc) =
        (v ++ delta, acc ++ delta.map (fun c => ⟨c, level + 1⟩)) ∧
      delta.Nodup ∧
      (∀ c ∈ delta, c ∈ children ∧ c ∉ v) ∧
      (∀ c ∈ children, c ∈ v ++ delta) := by
  intro children
  induction children with
  | nil =>
    intro v acc
    exact ⟨[], by simp, by simp, by simp, by simp⟩
  | cons c rest ih =>
    intro v acc
    rw [List.foldl_cons]
    by_cases hc : c ∈ v
    · have hstep : visitStep level (v, acc) c = (v, acc) := by
        simp [visitStep, hc]
      rw [hstep]
      obtain ⟨delta, h1, h2, h3, h4⟩ := ih v acc
      refine ⟨delta, h1, h2, ?_, ?_⟩
      · intro x hx
        exact ⟨List.mem_cons_of_mem _ (h3 x hx).1, (h3 x hx).2⟩
      · intro x hx
        rcases List.mem_cons.mp hx with hx | hx
        · subst hx
          exact List.mem_append.mpr (Or.inl hc)
        · exact h4 x hx
    · have hstep : visitStep level (v, acc) c =
          (v ++ [c], acc ++ [⟨c, level + 1⟩]) := by
        simp [visitStep, hc]
      rw [hstep]
      obtain ⟨delta, h1, h2, h3, h4⟩ := ih (v ++ [c]) (acc ++ [⟨c, level + 1⟩])
      refine ⟨c :: delta, ?_, ?_, ?_, ?_⟩
      · rw [h1]
        simp
      · refine List.nodup_cons.mpr ⟨?_, h2⟩
        intro hcd
        exact ((h3 c hcd).2) (List.mem_append.mpr (Or.inr (List.mem_singleton.mpr rfl)))
      · intro x hx
        rcases List.mem_cons.mp hx with hx | hx
        · subst hx
          exact ⟨List.mem_cons_self _ _, hc⟩
        · obtain ⟨hx1, hx2⟩ := h3 x hx
          refine ⟨List.mem_cons_of_mem _ hx1, fun hxv => hx2 ?_⟩
          exact List.mem_append.mpr (Or.inl hxv)
      · intro x hx
        rcases List.mem_cons.mp hx with hx | hx
        · subst hx
          simp
        · have := h4 x hx
          rcases List.mem_append.mp this with hx' | hx'
          · rcases List.mem_append.mp hx' with hx'' | hx''
            · exact List.mem_append.mpr (Or.inl hx'')
            · rw [List.mem_singleton.mp hx'']
              simp
          · refine List.mem_append.mpr (Or.inr ?_)
            exact List.mem_cons_of_mem _ hx'

theorem visitChildren_spec (visited children : List String) (level : Nat) :
    ∃ delta : List String,
      visitChildren visited children level =
        (visited ++ delta, delta.map (fun c => ⟨c, level + 1⟩)) ∧
      delta.Nodup ∧
      (∀ c ∈ delta, c ∈ children ∧ c ∉ visited) ∧
      (∀ c ∈ children, c ∈ visited ++ delta) := by
  obtain ⟨delta, h1, h2, h3, h4⟩ := visitChildren_loop level children visited []
  rw [List.nil_append] at h1
  exact ⟨delta, h1, h2, h3, h4⟩

theorem unseen_append (ids v delta : List String) (hnd : delta.Nodup)
    (h : ∀ c ∈ delta, c ∈ ids ∧ c ∉ v) :
    unseen ids (v ++ delta) + delta.length = unseen ids v := by
  rw [unseen, unseen, List.toFinset_append]
  have hsplit : ids.toFinset \ (v.toFinset ∪ delta.toFinset) =
      (ids.toFinset \ v.toFinset) \ delta.toFinset := by
    ext x
    simp only [Finset.mem_sdiff, Finset.mem_union]
    tauto
  rw [hsplit]
  have hsub : delta.toFinset ⊆ ids.toFinset \ v.toFinset := by
    intro x hx
    rw [List.mem_toFinset] at hx
    obtain ⟨h1, h2⟩ := h x hx
    rw [Finset.mem_sdiff, List.mem_toFinset, List.mem_toFinset]
    exact ⟨h1, h2⟩
  rw [Finset.card_sdiff hsub, List.toFinset_card_of_nodup hnd]
  have := Finset.card_le_card hsub
  rw [List.toFinset_card_of_nodup hnd] at this
  omega

theorem bfs_term (adj : List (String × List String)) (ids : List String)
    (hadj : ∀ p c, c ∈ childrenOf adj p → c ∈ ids) :
    ∀ (fuel : Nat) (levels : List (String × Nat)) (v : List String) (queue : List QItem)
      (cnt : Nat), queue.length + unseen ids v ≤ fuel →
      (bfsAux adj fuel levels v queue cnt).remaining = [] ∧
      (bfsAux adj fuel levels v queue cnt).dequeues ≤ cnt + queue.length + unseen ids v := by
  intro fuel
  induction fuel with
  | zero =>
    intro levels v queue cnt hfuel
    have hq : queue = [] := List.length_eq_zero.mp (by omega)
    subst hq
    simp [bfsAux]
  | succ fuel ih =>
    intro levels v queue cnt hfuel
    match queue with
    | [] => simp [bfsAux]
    | item :: rest =>
      obtain ⟨delta, h1, h2, h3, h4⟩ :=
        visitChildren_spec v ((getKey adj item.id).getD []) item.level
      have hbfs : bfsAux adj (fuel + 1) levels v (item :: rest) cnt =
          bfsAux adj fuel (setKey levels item.id item.level) (v ++ delta)
            (rest ++ delta.map (fun c => ⟨c, item.level + 1⟩)) (cnt + 1) := by
        rw [bfsAux, h1]
      have hdelta : ∀ c ∈ delta, c ∈ ids ∧ c ∉ v := by
        intro c hc
        exact ⟨hadj item.id c (h3 c hc).1, (h3 c hc).2⟩
      have huns : unseen ids (v ++ delta) + delta.length = unseen ids v :=
        unseen_append ids v delta h2 hdelta
      have hlen : (rest ++ delta.map (fun c => (⟨c, item.level + 1⟩ : QItem))).length =
          rest.length + delta.length := by
        rw [List.length_append, List.length_map]
      have hfuel' : (rest ++ delta.map (fun c => (⟨c, item.level + 1⟩ : QItem))).length +
          unseen ids (v ++ delta) ≤ fuel := by
        rw [hlen]
        have hq : (item :: rest).length = rest.length + 1 := by
          rw [List.length_cons]
        rw [hq] at hfuel
        omega
      obtain ⟨g1, g2⟩ := ih (setKey levels item.id item.level) (v ++ delta)
        (rest ++ delta.map (fun c => ⟨c, item.level + 1⟩)) (cnt + 1) hfuel'
      rw [hbfs]
      refine ⟨g1, ?_⟩
      rw [hlen] at g2
      have hq : (item :: rest).length = rest.length + 1 := by
        rw [List.length_cons]
      rw [hq]
      omega

theorem bfs_keys (adj : List (String × List String)) (ids : List String)
    (hadj : ∀ p c, c ∈ childrenOf adj p → c ∈ ids) :
    ∀ (fuel : Nat) (levels : List (String × Nat)) (v : List String) (queue : List QItem)
      (cnt : Nat),
      (∀ it ∈ queue, it.id ∈ ids) → (∀ k ∈ levels.map Prod.fst, k ∈ ids) →
      ∀ k ∈ (bfsAux adj fuel levels v queue cnt).levels.map Prod.fst, k ∈ ids := by
  intro fuel
  induction fuel with
  | zero =>
    intro levels v queue cnt _ hL
    simpa [bfsAux] using hL
  | succ fuel ih =>
    intro levels v queue cnt hq hL
    match queue with
    | [] => simpa [bfsAux] using hL
    | item :: rest =>
      obtain ⟨delta, h1, h2, h3, h4⟩ :=
        visitChildren_spec v ((getKey adj item.id).getD []) item.level
      have hbfs : bfsAux adj (fuel + 1) levels v (item :: rest) cnt =
          bfsAux adj fuel (setKey levels item.id item.level) (v ++ delta)
            (rest ++ delta.map (fun c => ⟨c, item.level + 1⟩)) (cnt + 1) := by
        rw [bfsAux, h1]
      rw [hbfs]
      apply ih
      · intro it hit
        rcases List.mem_append.mp hit with hit | hit
        · exact hq it (List.mem_cons_of_mem _ hit)
        · obtain ⟨c, hc, hceq⟩ := List.mem_map.mp hit
          rw [← hceq]
          exact hadj item.id c (h3 c hc).1
      · intro k hk
        rcases keys_setKey_sub _ _ _ _ hk with hk | hk
        · rw [hk]
          exact hq item (List.mem_cons_self _ _)
        · exact hL k hk

theorem bfs_nodup (adj : List (String × List String)) :
    ∀ (fuel : Nat) (levels : List (String × Nat)) (v : List String) (queue : List QItem)
      (cnt : Nat), (levels.map Prod.fst).Nodup →
      ((bfsAux adj fuel levels v queue cnt).levels.map Prod.fst).Nodup := by
  intro fuel
  induction fuel with
  | zero =>
    intro levels v queue cnt hL
    simpa [bfsAux] using hL
  | succ fuel ih =>
    intro levels v queue cnt hL
    match queue with
    | [] => simpa [bfsAux] using hL
    | item :: rest =>
      obtain ⟨delta, h1, _, _, _⟩ :=
        visitChildren_spec v ((getKey adj item.id).getD []) item.level
      have hbfs : bfsAux adj (fuel + 1) levels v (item :: rest) cnt =
          bfsAux adj fuel (setKey levels item.id item.level) (v ++ delta)
            (rest ++ delta.map (fun c => ⟨c, item.level + 1⟩)) (cnt + 1) := by
        rw [bfsAux, h1]
      rw [hbfs]
      exact ih _ _ _ _ (nodup_keys_setKey _ _ _ hL)

theorem bfs_master (adj : List (String × List String)) (ids : List String)
    (hadj : ∀ p c, c ∈ childrenOf adj p → c ∈ ids) :
    ∀ (fuel : Nat) (levels : List (String × Nat)) (v : List String) (queue : List QItem)
      (cnt : Nat),
      (∀ it ∈ queue, it.id ∈ v) →
      (∀ k ∈ levels.map Prod.fst, k ∈ v) →
      (queue.map QItem.id).Nodup →
      (∀ it ∈ queue, it.id ∉ levels.map Prod.fst) →
      (∀ i l, getKey levels i = some (l + 1) →
        ∃ p, getKey levels p = some l ∧ i ∈ childrenOf adj p) →
      (∀ it ∈ queue, ∀ l, it.level = l + 1 →
        ∃ p, getKey levels p = some l ∧ it.id ∈ childrenOf adj p) →
      queue.length + unseen ids v ≤ fuel →
      (∀ i l, getKey levels i = some l →
        getKey (bfsAux adj fuel levels v queue cnt).levels i = some l) ∧
      (∀ it ∈ queue, getKey (bfsAux adj fuel levels v queue cnt).levels it.id = some it.level) ∧
      (∀ i l, getKey (bfsAux adj fuel levels v queue cnt).levels i = some (l + 1) →
        ∃ p, getKey (bfsAux adj fuel levels v queue cnt).levels p = some l ∧
          i ∈ childrenOf adj p) := by
  intro fuel
  induction fuel with
  | zero =>
    intro levels v queue cnt hqv hLv hqnd hqL hGL hGQ hfuel
    have hq : queue = [] := List.length_eq_zero.mp (by omega)
    subst hq
    exact ⟨fun i l h => h, by simp, hGL⟩
  | succ fuel ih =>
    intro levels v queue cnt hqv hLv hqnd hqL hGL hGQ hfuel
    match queue with
    | [] => exact ⟨fun i l h => h, by simp, hGL⟩
    | item :: rest =>
      obtain ⟨delta, h1, h2, h3, h4⟩ :=
        visitChildren_spec v ((getKey adj item.id).getD []) item.level
      have hbfs : bfsAux adj (fuel + 1) levels v (item :: rest) cnt =
          bfsAux adj fuel (setKey levels item.id item.level) (v ++ delta)
            (rest ++ delta.map (fun c => ⟨c, item.level + 1⟩)) (cnt + 1) := by
        rw [bfsAux, h1]
      have hchild : ∀ c ∈ delta, c ∈ childrenOf adj item.id := by
        intro c hc
        rw [childrenOf]
        exact (h3 c hc).1
      have hitemv : item.id ∈ v := hqv item (List.mem_cons_self _ _)
      have hitemL : item.id ∉ levels.map Prod.fst := hqL item (List.mem_cons_self _ _)
      rw [List.map_cons, List.nodup_cons] at hqnd
      obtain ⟨hitem_rest, hrestnd⟩ := hqnd
      -- persistence from the updated levels: existing entries keep their keys
      have hkeysub : ∀ k, k ∈ (setKey levels item.id item.level).map Prod.fst →
          k = item.id ∨ k ∈ levels.map Prod.fst := fun k hk => keys_setKey_sub _ _ _ _ hk
      have hpersist1 : ∀ i l, getKey levels i = some l →
          getKey (setKey levels item.id item.level) i = some l := by
        intro i l hl
        have hik : i ∈ levels.map Prod.fst := mem_keys_of_getKey_eq_some hl
        have hine : i ≠ item.id := fun h => hitemL (h ▸ hik)
        rw [getKey_setKey_ne _ _ _ _ hine]
        exact hl
      -- invariants for the recursive call
      have hqv' : ∀ it ∈ rest ++ delta.map (fun c => (⟨c, item.level + 1⟩ : QItem)),
          it.id ∈ v ++ delta := by
        intro it hit
        rcases List.mem_append.mp hit with hit | hit
        · exact List.mem_append.mpr (Or.inl (hqv it (List.mem_cons_of_mem _ hit)))
        · obtain ⟨c, hc, hceq⟩ := List.mem_map.mp hit
          rw [← hceq]
          exact List.mem_append.mpr (Or.inr hc)
      have hLv' : ∀ k ∈ (setKey levels item.id item.level).map Prod.fst, k ∈ v ++ delta := by
        intro k hk
        rcases hkeysub k hk with hk | hk
        · rw [hk]
          exact List.mem_append.mpr (Or.inl hitemv)
        · exact List.mem_append.mpr (Or.inl (hLv k hk))
      have hqnd' : ((rest ++ delta.map (fun c => (⟨c, item.level + 1⟩ : QItem))).map
          QItem.id).Nodup := by
        rw [List.map_append]
        have hmm : (delta.map (fun c => (⟨c, item.level + 1⟩ : QItem))).map QItem.id = delta := by
          rw [List.map_map]
          exact List.map_id delta
        rw [hmm]
        rw [List.nodup_append]
        refine ⟨hrestnd, h2, ?_⟩
        intro x hx hxd
        obtain ⟨it, hit, hiteq⟩ := List.mem_map.mp hx
        have : x ∈ v := hiteq ▸ hqv it (List.mem_cons_of_mem _ hit)
        exact (h3 x hxd).2 this
      have hqL' : ∀ it ∈ rest ++ delta.map (fun c => (⟨c, item.level + 1⟩ : QItem)),
          it.id ∉ (setKey levels item.id item.level).map Prod.fst := by
        intro it hit hk
        rcases List.mem_append.mp hit with hit | hit
        · rcases hkeysub it.id hk with hk' | hk'
          · exact hitem_rest (hk' ▸ List.mem_map.mpr ⟨it, hit, rfl⟩)
          · exact hqL it (List.mem_cons_of_mem _ hit) hk'
        · obtain ⟨c, hc, hceq⟩ := List.mem_map.mp hit
          have hcv : c ∉ v := (h3 c hc).2
          rcases hkeysub it.id hk with hk' | hk'
          · rw [← hceq] at hk'
            have hk2 : c = item.id := hk'
            rw [hk2] at hcv
            exact hcv hitemv
          · rw [← hceq] at hk'
            have hk2 : c ∈ levels.map Prod.fst := hk'
            exact hcv (hLv c hk2)
      have hGL' : ∀ i l, getKey (setKey levels item.id item.level) i = some (l + 1) →
          ∃ p, getKey (setKey levels item.id item.level) p = some l ∧
            i ∈ childrenOf adj p := by
        intro i l hl
        by_cases hi : i = item.id
        · subst hi
          rw [getKey_setKey_self] at hl
          have hlev : item.level = l + 1 := by injection hl
          obtain ⟨p, hp, hpc⟩ := hGQ item (List.mem_cons_self _ _) l hlev
          exact ⟨p, hpersist1 p l hp, hpc⟩
        · rw [getKey_setKey_ne _ _ _ _ hi] at hl
          obtain ⟨p, hp, hpc⟩ := hGL i l hl
          exact ⟨p, hpersist1 p l hp, hpc⟩
      have hGQ' : ∀ it ∈ rest ++ delta.map (fun c => (⟨c, item.level + 1⟩ : QItem)),
          ∀ l, it.level = l + 1 →
          ∃ p, getKey (setKey levels item.id item.level) p = some l ∧
            it.id ∈ childrenOf adj p := by
        intro it hit l hl
        rcases List.mem_append.mp hit with hit | hit
        · obtain ⟨p, hp, hpc⟩ := hGQ it (List.mem_cons_of_mem _ hit) l hl
          exact ⟨p, hpersist1 p l hp, hpc⟩
        · obtain ⟨c, hc, hceq⟩ := List.mem_map.mp hit
          have hlev : l = item.level := by
            rw [← hceq] at hl
            injection hl with h
            omega
          subst hlev
          refine ⟨item.id, getKey_setKey_self _ _ _, ?_⟩
          rw [← hceq]
          exact hchild c hc
      have hdelta : ∀ c ∈ delta, c ∈ ids ∧ c ∉ v := by
        intro c hc
        exact ⟨hadj item.id c (hchild c hc), (h3 c hc).2⟩
      have huns : unseen ids (v ++ delta) + delta.length = unseen ids v :=
        unseen_append ids v delta h2 hdelta
      have hfuel' : (rest ++ delta.map (fun c => (⟨c, item.level + 1⟩ : QItem))).length +
          unseen ids (v ++ delta) ≤ fuel := by
        rw [List.length_append, List.length_map]
        have hq : (item :: rest).length = rest.length + 1 := List.length_cons _ _
        rw [hq] at hfuel
        omega
      obtain ⟨gP, gQ, gG⟩ := ih (setKey levels item.id item.level) (v ++ delta)
        (rest ++ delta.map (fun c => ⟨c, item.level + 1⟩)) (cnt + 1)
        hqv' hLv' hqnd' hqL' hGL' hGQ' hfuel'
      rw [hbfs]
      refine ⟨?_, ?_, gG⟩
      · intro i l hl
        exact gP i l (hpersist1 i l hl)
      · intro it hit
        rcases List.mem_cons.mp hit with hit | hit
        · rw [hit]
          exact gP item.id item.level (getKey_setKey_self _ _ _)
        · exact gQ it (List.mem_append.mpr (Or.inl hit))

/-! ### Pipeline instantiation of the BFS lemmas -/

theorem visited_fold_mem : ∀ (q : List QItem) (v : List String) (x : String),
    (x ∈ q.foldl (fun v q => if q.id ∈ v then v else v ++ [q.id]) v ↔
      x ∈ v ∨ ∃ it ∈ q, it.id = x) := by
  intro q
  induction q with
  | nil => intro v x; simp
  | cons item rest ih =>
    intro v x
    rw [List.foldl_cons]
    by_cases hi : item.id ∈ v
    · rw [if_pos hi, ih]
      constructor
      · rintro (h | h)
        · exact Or.inl h
        · exact Or.inr (by obtain ⟨it, h1, h2⟩ := h; exact ⟨it, List.mem_cons_of_mem _ h1, h2⟩)
      · rintro (h | ⟨it, h1, h2⟩)
        · exact Or.inl h
        · rcases List.mem_cons.mp h1 with h1 | h1
          · subst h1
            exact Or.inl (h2 ▸ hi)
          · exact Or.inr ⟨it, h1, h2⟩
    · rw [if_neg hi, ih]
      constructor
      · rintro (h | h)
        · rcases List.mem_append.mp h with h | h
          · exact Or.inl h
          · refine Or.inr ⟨item, List.mem_cons_self _ _, ?_⟩
            exact (List.mem_singleton.mp h).symm
        · exact Or.inr (by obtain ⟨it, h1, h2⟩ := h; exact ⟨it, List.mem_cons_of_mem _ h1, h2⟩)
      · rintro (h | ⟨it, h1, h2⟩)
        · exact Or.inl (List.mem_append.mpr (Or.inl h))
        · rcases List.mem_cons.mp h1 with h1 | h1
          · subst h1
            exact Or.inl (List.mem_append.mpr (Or.inr (List.mem_singleton.mpr h2.symm)))
          · exact Or.inr ⟨it, h1, h2⟩

theorem initialVisited_mem (es : List CanvasElement) (cs : List Connection) (x : String) :
    x ∈ initialVisited es cs ↔ x ∈ (initialQueue es cs).map QItem.id := by
  rw [initialVisited, visited_fold_mem]
  simp [List.mem_map]

theorem layoutRoots_sublist (es : List CanvasElement) (cs : List Connection) :
    (layoutRoots es cs).Sublist es := by
  rw [layoutRoots, rootsOf]
  by_cases h : (rootCandidates es (inDegreeOf es cs)).isEmpty && !es.isEmpty
  · rw [if_pos h]
    exact List.take_sublist 1 es
  · rw [if_neg h]
    exact List.filter_sublist es

theorem initialQueue_map_id (es : List CanvasElement) (cs : List Connection) :
    (initialQueue es cs).map QItem.id = (layoutRoots es cs).map CanvasElement.id := by
  rw [initialQueue, List.map_map]
  rfl

theorem initialQueue_ids_sub (es : List CanvasElement) (cs : List Connection) :
    ∀ x ∈ (initialQueue es cs).map QItem.id, x ∈ es.map CanvasElement.id := by
  intro x hx
  rw [initialQueue_map_id] at hx
  exact (List.Sublist.map CanvasElement.id (layoutRoots_sublist es cs)).mem hx

theorem initialQueue_ids_nodup (es : List CanvasElement) (cs : List Connection)
    (h : (es.map CanvasElement.id).Nodup) : ((initialQueue es cs).map QItem.id).Nodup := by
  rw [initialQueue_map_id]
  exact h.sublist (List.Sublist.map CanvasElement.id (layoutRoots_sublist es cs))

theorem initialQueue_levels (es : List CanvasElement) (cs : List Connection) :
    ∀ it ∈ initialQueue es cs, it.level = 0 := by
  intro it hit
  rw [initialQueue] at hit
  obtain ⟨r, _, hr⟩ := List.mem_map.mp hit
  rw [← hr]

theorem unseen_le_length (ids v : List String) : unseen ids v ≤ ids.length := by
  rw [unseen]
  calc (ids.toFinset \ v.toFinset).card ≤ ids.toFinset.card :=
        Finset.card_le_card (Finset.sdiff_subset)
    _ ≤ ids.length := ids.toFinset_card_le

theorem layout_fuel_ok (es : List CanvasElement) (cs : List Connection) :
    (initialQueue es cs).length + unseen (es.map CanvasElement.id) (initialVisited es cs) ≤
      (initialQueue es cs).length + es.length := by
  have h := unseen_le_length (es.map CanvasElement.id) (initialVisited es cs)
  rw [List.length_map] at h
  omega

theorem layoutBFS_remaining (es : List CanvasElement) (cs : List Connection) :
    (layoutBFS es cs).remaining = [] := by
  rw [layoutBFS]
  exact (bfs_term (adjOf es cs) (es.map CanvasElement.id)
    (fun p c hc => childrenOf_sub es cs p c hc)
    ((initialQueue es cs).length + es.length) [] (initialVisited es cs)
    (initialQueue es cs) 0 (layout_fuel_ok es cs)).1

theorem layoutBFS_keys_sub (es : List CanvasElement) (cs : List Connection) :
    ∀ k ∈ (layoutBFS es cs).levels.map Prod.fst, k ∈ es.map CanvasElement.id := by
  rw [layoutBFS]
  exact bfs_keys (adjOf es cs) (es.map CanvasElement.id)
    (fun p c hc => childrenOf_sub es cs p c hc)
    ((initialQueue es cs).length + es.length) [] (initialVisited es cs)
    (initialQueue es cs) 0
    (fun it hit => initialQueue_ids_sub es cs it.id (List.mem_map.mpr ⟨it, hit, rfl⟩))
    (by simp)

theorem layoutBFS_keys_nodup (es : List CanvasElement) (cs : List Connection) :
    ((layoutBFS es cs).levels.map Prod.fst).Nodup := by
  rw [layoutBFS]
  exact bfs_nodup (adjOf es cs) ((initialQueue es cs).length + es.length) []
    (initialVisited es cs) (initialQueue es cs) 0 (by simp)

theorem layoutBFS_master (es : List CanvasElement) (cs : List Connection)
    (h : (es.map CanvasElement.id).Nodup) :
    (∀ it ∈ initialQueue es cs, getKey (layoutBFS es cs).levels it.id = some it.level) ∧
    (∀ i l, getKey (layoutBFS es cs).levels i = some (l + 1) →
      ∃ p, getKey (layoutBFS es cs).levels p = some l ∧
        i ∈ childrenOf (adjOf es cs) p) := by
  rw [layoutBFS]
  have hres := bfs_master (adjOf es cs) (es.map CanvasElement.id)
    (fun p c hc => childrenOf_sub es cs p c hc)
    ((initialQueue es cs).length + es.length) [] (initialVisited es cs)
    (initialQueue es cs) 0
    (fun it hit => (initialVisited_mem es cs it.id).mpr (List.mem_map.mpr ⟨it, hit, rfl⟩))
    (by simp)
    (initialQueue_ids_nodup es cs h)
    (by simp)
    (by simp [getKey])
    (fun it hit l hl => absurd (hl ▸ initialQueue_levels es cs it hit) (by omega))
    (layout_fuel_ok es cs)
  exact ⟨hres.2.1, hres.2.2⟩

/-! ### Orphan-handling lemmas -/

theorem fillOrphans_cons (el : CanvasElement) (rest : List CanvasElement)
    (L : List (String × Nat)) :
    fillOrphans (el :: rest) L = fillOrphans rest (orphanStep L el) := by
  rw [fillOrphans, fillOrphans, List.foldl_cons]

theorem orphanStep_persist (L : List (String × Nat)) (el : CanvasElement) (i : String)
    (l : Nat) (h : getKey L i = some l) : getKey (orphanStep L el) i = some l := by
  rw [orphanStep]
  by_cases he : getKey L el.id = none
  · rw [if_pos he]
    have hne : i ≠ el.id := by
      intro hi
      rw [hi, he] at h
      cases h
    rw [getKey_setKey_ne _ _ _ _ hne]
    exact h
  · rw [if_neg he]
    exact h

theorem fillOrphans_persist : ∀ (es : List CanvasElement) (L : List (String × Nat))
    (i : String) (l : Nat), getKey L i = some l → getKey (fillOrphans es L) i = some l := by
  intro es
  induction es with
  | nil => intro L i l h; exact h
  | cons el rest ih =>
    intro L i l h
    rw [fillOrphans_cons]
    exact ih _ i l (orphanStep_persist L el i l h)

theorem fillOrphans_keys_mono (es : List CanvasElement) (L : List (String × Nat)) (k : String)
    (h : k ∈ L.map Prod.fst) : k ∈ (fillOrphans es L).map Prod.fst := by
  obtain ⟨l, hl⟩ := Option.isSome_iff_exists.mp ((getKey_isSome_iff L k).mpr h)
  exact mem_keys_of_getKey_eq_some (fillOrphans_persist es L k l hl)

theorem fillOrphans_covers : ∀ (es : List CanvasElement) (L : List (String × Nat))
    (el : CanvasElement), el ∈ es → el.id ∈ (fillOrphans es L).map Prod.fst := by
  intro es
  induction es with
  | nil => intro L el h; cases h
  | cons e rest ih =>
    intro L el h
    rw [fillOrphans_cons]
    rcases List.mem_cons.mp h with h | h
    · subst h
      apply fillOrphans_keys_mono
      rw [orphanStep]
      by_cases he : getKey L el.id = none
      · rw [if_pos he]
        exact mem_keys_setKey _ _ _
      · rw [if_neg he]
        exact (getKey_isSome_iff L el.id).mp (Option.ne_none_iff_isSome.mp he)
    · exact ih _ el h

theorem fillOrphans_keys_sub : ∀ (es : List CanvasElement) (L : List (String × Nat))
    (k : String), k ∈ (fillOrphans es L).map Prod.fst →
    k ∈ L.map Prod.fst ∨ k ∈ es.map CanvasElement.id := by
  intro es
  induction es with
  | nil => intro L k h; exact Or.inl h
  | cons el rest ih =>
    intro L k h
    rw [fillOrphans_cons] at h
    rcases ih _ k h with h | h
    · rw [orphanStep] at h
      by_cases he : getKey L el.id = none
      · rw [if_pos he] at h
        rcases keys_setKey_sub _ _ _ _ h with h | h
        · exact Or.inr (by simp [h])
        · exact Or.inl h
      · rw [if_neg he] at h
        exact Or.inl h
    · exact Or.inr (List.mem_cons_of_mem _ h)

theorem fillOrphans_nodup : ∀ (es : List CanvasElement) (L : List (String × Nat)),
    (L.map Prod.fst).Nodup → ((fillOrphans es L).map Prod.fst).Nodup := by
  intro es
  induction es with
  | nil => intro L h; exact h
  | cons el rest ih =>
    intro L h
    rw [fillOrphans_cons]
    apply ih
    rw [orphanStep]
    by_cases he : getKey L el.id = none
    · rw [if_pos he]
      exact nodup_keys_setKey _ _ _ h
    · rw [if_neg he]
      exact h

theorem fillOrphans_orphan : ∀ (es : List CanvasElement) (L : List (String × Nat))
    (el : CanvasElement), el ∈ es → getKey L el.id = none →
    getKey (fillOrphans es L) el.id = some 0 := by
  intro es
  induction es with
  | nil => intro L el h; cases h
  | cons e rest ih =>
    intro L el h hnone
    rw [fillOrphans_cons]
    by_cases hid : el.id = e.id
    · have hstep : getKey (orphanStep L e) el.id = some 0 := by
        rw [orphanStep, ← hid, hnone]
        rw [if_pos rfl]
        exact getKey_setKey_self _ _ _
      exact fillOrphans_persist rest _ el.id 0 hstep
    · rcases List.mem_cons.mp h with h | h
      · exact absurd (congrArg CanvasElement.id h) hid
      · apply ih _ el h
        rw [orphanStep]
        by_cases he : getKey L e.id = none
        · rw [if_pos he, getKey_setKey_ne _ _ _ _ hid]
          exact hnone
        · rw [if_neg he]
          exact hnone

/-! ### Final levels object -/

theorem layoutLevels_nodup (es : List CanvasElement) (cs : List Connection) :
    ((layoutLevels es cs).map Prod.fst).Nodup :=
  fillOrphans_nodup es _ (layoutBFS_keys_nodup es cs)

theorem layoutLevels_mem_keys (es : List CanvasElement) (cs : List Connection) (k : String) :
    k ∈ (layoutLevels es cs).map Prod.fst ↔ k ∈ es.map CanvasElement.id := by
  constructor
  · intro h
    rcases fillOrphans_keys_sub es _ k h with h | h
    · exact layoutBFS_keys_sub es cs k h
    · exact h
  · intro h
    obtain ⟨el, hel, heq⟩ := List.mem_map.mp h
    rw [← heq]
    exact fillOrphans_covers es _ el hel

/-! ### Grouping lemmas -/

theorem getKey_append {κ α : Type} [DecidableEq κ] (m1 m2 : List (κ × α)) (k : κ) :
    getKey (m1 ++ m2) k = match getKey m1 k with
      | some v => some v
      | none => getKey m2 k := by
  induction m1 with
  | nil => simp [getKey]
  | cons p rest ih =>
    by_cases hp : p.1 = k
    · rw [List.cons_append, getKey, if_pos hp, getKey, if_pos hp]
    · rw [List.cons_append, getKey, if_neg hp, getKey, if_neg hp, ih]

theorem groups_loop_some : ∀ (L : List (String × Nat)) (gs : List (Nat × List String))
    (l : Nat) (b : List String), getKey gs l = some b →
    getKey (L.foldl (fun gs p => addToGroups gs p.1 p.2) gs) l =
      some (b ++ (L.filter (fun p => decide (p.2 = l))).map Prod.fst) := by
  intro L
  induction L with
  | nil =>
    intro gs l b hb
    simpa using hb
  | cons p rest ih =>
    intro gs l b hb
    rw [List.foldl_cons]
    by_cases hl : p.2 = l
    · have hstep : addToGroups gs p.1 p.2 = setKey gs l (b ++ [p.1]) := by
        rw [addToGroups, hl, hb]
      rw [hstep]
      have hres := ih (setKey gs l (b ++ [p.1])) l (b ++ [p.1]) (getKey_setKey_self _ _ _)
      rw [hres]
      have hfil : (p :: rest).filter (fun p => decide (p.2 = l)) =
          p :: rest.filter (fun p => decide (p.2 = l)) := by
        rw [List.filter_cons, if_pos (by simp [hl])]
      rw [hfil]
      simp
    · have hkey : getKey (addToGroups gs p.1 p.2) l = some b := by
        rw [addToGroups]
        rcases hg : getKey gs p.2 with _ | bucket
        · rw [getKey_append, hb]
        · rw [getKey_setKey_ne _ _ _ _ (fun h => hl h.symm)]
          exact hb
      have hres := ih (addToGroups gs p.1 p.2) l b hkey
      rw [hres]
      have hfil : (p :: rest).filter (fun p => decide (p.2 = l)) =
          rest.filter (fun p => decide (p.2 = l)) := by
        rw [List.filter_cons, if_neg (by simp [hl])]
      rw [hfil]

theorem groups_loop_none : ∀ (L : List (String × Nat)) (gs : List (Nat × List String))
    (l : Nat), getKey gs l = none →
    getKey (L.foldl (fun gs p => addToGroups gs p.1 p.2) gs) l =
      (if (L.filter (fun p => decide (p.2 = l))).isEmpty then none
       else some ((L.filter (fun p => decide (p.2 = l))).map Prod.fst)) := by
  intro L
  induction L with
  | nil =>
    intro gs l hb
    simpa using hb
  | cons p rest ih =>
    intro gs l hb
    rw [List.foldl_cons]
    by_cases hl : p.2 = l
    · have hstep : addToGroups gs p.1 p.2 = gs ++ [(l, [p.1])] := by
        rw [addToGroups, hl, hb]
      rw [hstep]
      have hkey : getKey (gs ++ [(l, [p.1])]) l = some [p.1] := by
        rw [getKey_append, hb, getKey, if_pos rfl]
      have hres := groups_loop_some rest (gs ++ [(l, [p.1])]) l [p.1] hkey
      rw [hres]
      have hfil : (p :: rest).filter (fun p => decide (p.2 = l)) =
          p :: rest.filter (fun p => decide (p.2 = l)) := by
        rw [List.filter_cons, if_pos (by simp [hl])]
      rw [hfil]
      simp
    · have hkey : getKey (addToGroups gs p.1 p.2) l = none := by
        rw [addToGroups]
        rcases hg : getKey gs p.2 with _ | bucket
        · rw [getKey_append, hb, getKey]
          have hne : ¬ ((p.2, [p.1]) : Nat × List String).1 = l := hl
          rw [if_neg hne]
          rfl
        · rw [getKey_setKey_ne _ _ _ _ (fun h => hl h.symm)]
          exact hb
      have hres := ih (addToGroups gs p.1 p.2) l hkey
      rw [hres]
      have hfil : (p :: rest).filter (fun p => decide (p.2 = l)) =
          rest.filter (fun p => decide (p.2 = l)) := by
        rw [List.filter_cons, if_neg (by simp [hl])]
      rw [hfil]

theorem groupsOf_getKey (L : List (String × Nat)) (l : Nat) :
    getKey (groupsOf L) l =
      (if (L.filter (fun p => decide (p.2 = l))).isEmpty then none
       else some ((L.filter (fun p => decide (p.2 = l))).map Prod.fst)) :=
  groups_loop_none L [] l rfl

theorem groups_loop_nodup : ∀ (L : List (String × Nat)) (gs : List (Nat × List String)),
    (gs.map Prod.fst).Nodup →
    ((L.foldl (fun gs p => addToGroups gs p.1 p.2) gs).map Prod.fst).Nodup := by
  intro L
  induction L with
  | nil => intro gs h; exact h
  | cons p rest ih =>
    intro gs h
    rw [List.foldl_cons]
    apply ih
    rw [addToGroups]
    rcases hg : getKey gs p.2 with _ | bucket
    · rw [List.map_append]
      rw [List.nodup_append]
      refine ⟨h, by simp, ?_⟩
      intro x hx hx'
      have hxp : x = p.2 := by simpa using hx'
      rw [hxp] at hx
      exact (getKey_eq_none_iff gs p.2).mp hg hx
    · exact nodup_keys_setKey _ _ _ h

theorem groupsOf_nodup (L : List (String × Nat)) : ((groupsOf L).map Prod.fst).Nodup :=
  groups_loop_nodup L [] (by simp)

theorem groups_loop_flatten : ∀ (L : List (String × Nat)) (gs : List (Nat × List String)),
    ((L.foldl (fun gs p => addToGroups gs p.1 p.2) gs).map Prod.snd).flatten.Perm
      ((gs.map Prod.snd).flatten ++ L.map Prod.fst) := by
  intro L
  induction L with
  | nil => intro gs; simp
  | cons p rest ih =>
    intro gs
    rw [List.foldl_cons]
    have hstep : ((addToGroups gs p.1 p.2).map Prod.snd).flatten.Perm
        ((gs.map Prod.snd).flatten ++ [p.1]) := by
      rcases hg : getKey gs p.2 with _ | bucket
      · have haddeq : addToGroups gs p.1 p.2 = gs ++ [(p.2, [p.1])] := by
          simp [addToGroups, hg]
        rw [haddeq, List.map_append, List.flatten_append]
        simp
      · have haddeq : addToGroups gs p.1 p.2 = setKey gs p.2 (bucket ++ [p.1]) := by
          simp [addToGroups, hg]
        obtain ⟨l1, l2, hgs, hset⟩ := setKey_decomp (bucket ++ [p.1]) hg
        rw [haddeq, hset, hgs]
        rw [List.perm_iff_count]
        intro a
        simp [List.count_append, List.count_cons]
    refine (ih (addToGroups gs p.1 p.2)).trans
      ((hstep.append_right (rest.map Prod.fst)).trans ?_)
    rw [List.append_assoc, List.singleton_append, List.map_cons]

theorem groupsOf_flatten_perm (L : List (String × Nat)) :
    ((groupsOf L).map Prod.snd).flatten.Perm (L.map Prod.fst) := by
  have h := groups_loop_flatten L []
  simpa using h

theorem layoutGroups_perm (es : List CanvasElement) (cs : List Connection) :
    (layoutGroups es cs).Perm (groupsOf (layoutLevels es cs)) := by
  rw [layoutGroups, sortedGroups]
  exact List.perm_insertionSort _ _

theorem layoutGroups_nodup_keys (es : List CanvasElement) (cs : List Connection) :
    ((layoutGroups es cs).map Prod.fst).Nodup :=
  (((layoutGroups_perm es cs).map Prod.fst).nodup_iff).mpr (groupsOf_nodup _)

theorem layoutGroups_mem_getKey (es : List CanvasElement) (cs : List Connection)
    (l : Nat) (b : List String) :
    ((l, b) ∈ layoutGroups es cs ↔ getKey (groupsOf (layoutLevels es cs)) l = some b) := by
  constructor
  · intro h
    exact getKey_eq_some_of_mem_nodup (groupsOf_nodup _) ((layoutGroups_perm es cs).mem_iff.mp h)
  · intro h
    exact (layoutGroups_perm es cs).mem_iff.mpr (mem_of_getKey_eq_some h)

theorem foldl_append_acc : ∀ (gs : List (Nat × List String)) (acc : List LayoutPos),
    gs.foldl (fun acc g => acc ++ placeGroup g.1 g.2) acc =
      acc ++ (gs.map (fun g => placeGroup g.1 g.2)).flatten := by
  intro gs
  induction gs with
  | nil => intro acc; simp
  | cons g rest ih =>
    intro acc
    rw [List.foldl_cons, ih, List.map_cons, List.flatten_cons, List.append_assoc]

theorem layout_eq_flatten (es : List CanvasElement) (cs : List Connection) :
    calculateHierarchicalLayout es cs =
      ((layoutGroups es cs).map (fun g => placeGroup g.1 g.2)).flatten := by
  by_cases h : es.length = 0
  · have hes : es = [] := List.length_eq_zero.mp h
    subst hes
    rfl
  · rw [calculateHierarchicalLayout, if_neg h]
    exact foldl_append_acc (layoutGroups es cs) []

theorem placeGroup_map_id (l : Nat) (ids : List String) :
    (placeGroup l ids).map LayoutPos.id = ids := by
  simp only [placeGroup]
  rw [List.map_map]
  show ids.enum.map Prod.snd = ids
  exact List.enum_map_snd ids

theorem placeGroup_length (l : Nat) (ids : List String) :
    (placeGroup l ids).length = ids.length := by
  simp only [placeGroup]
  rw [List.length_map, List.enum_length]

theorem mem_placeGroup (l : Nat) (ids : List String) (p : LayoutPos) :
    p ∈ placeGroup l ids ↔
      ∃ i, ∃ h : i < ids.length,
        p = ⟨ids.get ⟨i, h⟩, (l : Int) * (CARD_WIDTH + HORIZONTAL_GAP),
          (-(((ids.length : Int)) * CARD_HEIGHT + ((ids.length : Int) - 1) * VERTICAL_GAP)) / 2 +
            (i : Int) * (CARD_HEIGHT + VERTICAL_GAP)⟩ := by
  simp only [placeGroup, List.mem_map]
  constructor
  · rintro ⟨q, hq, rfl⟩
    have hq' := List.mem_enum_iff_getElem?.mp hq
    obtain ⟨h, hget⟩ := List.getElem?_eq_some.mp hq'
    refine ⟨q.1, h, ?_⟩
    rw [← hget]
    rfl
  · rintro ⟨i, h, rfl⟩
    refine ⟨(i, ids.get ⟨i, h⟩), ?_, rfl⟩
    apply List.mem_enum_iff_getElem?.mpr
    rw [List.getElem?_eq_getElem h]
    rfl

theorem layoutGroups_bucket (es : List CanvasElement) (cs : List Connection) (l : Nat)
    (b : List String) (h : (l, b) ∈ layoutGroups es cs) :
    b = ((layoutLevels es cs).filter (fun p => decide (p.2 = l))).map Prod.fst ∧ b ≠ [] := by
  have hg := (layoutGroups_mem_getKey es cs l b).mp h
  rw [groupsOf_getKey] at hg
  by_cases he : ((layoutLevels es cs).filter (fun p => decide (p.2 = l))).isEmpty
  · rw [if_pos he] at hg
    cases hg
  · rw [if_neg he] at hg
    injection hg with hg
    refine ⟨hg.symm, ?_⟩
    rw [← hg]
    intro hb
    rw [List.map_eq_nil_iff] at hb
    rw [hb] at he
    exact he rfl

theorem bucket_rank (es : List CanvasElement) (cs : List Connection) (l : Nat)
    (b : List String) (x : String) (h : (l, b) ∈ layoutGroups es cs) (hx : x ∈ b) :
    getKey (layoutLevels es cs) x = some l := by
  obtain ⟨hb, _⟩ := layoutGroups_bucket es cs l b h
  rw [hb] at hx
  obtain ⟨pair, hpair, heq⟩ := List.mem_map.mp hx
  obtain ⟨hmem, hfil⟩ := List.mem_filter.mp hpair
  have hp2 : pair.2 = l := of_decide_eq_true hfil
  have hpx : pair = (x, l) := by
    cases pair
    simp_all
  rw [hpx] at hmem
  exact getKey_eq_some_of_mem_nodup (layoutLevels_nodup es cs) hmem

theorem rank_bucket (es : List CanvasElement) (cs : List Connection) (x : String) (l : Nat)
    (h : getKey (layoutLevels es cs) x = some l) :
    ∃ b, (l, b) ∈ layoutGroups es cs ∧ x ∈ b := by
  have hmem : (x, l) ∈ layoutLevels es cs := mem_of_getKey_eq_some h
  have hfil : (x, l) ∈ (layoutLevels es cs).filter (fun p => decide (p.2 = l)) :=
    List.mem_filter.mpr ⟨hmem, by simp⟩
  refine ⟨((layoutLevels es cs).filter (fun p => decide (p.2 = l))).map Prod.fst, ?_, ?_⟩
  · apply (layoutGroups_mem_getKey es cs l _).mpr
    rw [groupsOf_getKey]
    rw [if_neg ?hne]
    case hne =>
      intro he
      rw [List.isEmpty_iff] at he
      rw [he] at hfil
      cases hfil
  · exact List.mem_map.mpr ⟨(x, l), hfil, rfl⟩

theorem mem_layout_elim (es : List CanvasElement) (cs : List Connection) (p : LayoutPos)
    (h : p ∈ calculateHierarchicalLayout es cs) :
    ∃ l b, (l, b) ∈ layoutGroups es cs ∧ p ∈ placeGroup l b := by
  rw [layout_eq_flatten] at h
  obtain ⟨pl, hpl, hp⟩ := List.mem_flatten.mp h
  obtain ⟨g, hg, hgeq⟩ := List.mem_map.mp hpl
  refine ⟨g.1, g.2, hg, ?_⟩
  rw [hgeq]
  exact hp

theorem mem_layout_intro (es : List CanvasElement) (cs : List Connection) (l : Nat)
    (b : List String) (p : LayoutPos) (hg : (l, b) ∈ layoutGroups es cs)
    (hp : p ∈ placeGroup l b) : p ∈ calculateHierarchicalLayout es cs := by
  rw [layout_eq_flatten]
  apply List.mem_flatten.mpr
  exact ⟨placeGroup l b, List.mem_map.mpr ⟨(l, b), hg, rfl⟩, hp⟩

theorem layout_ids_perm (es : List CanvasElement) (cs : List Connection) :
    ((calculateHierarchicalLayout es cs).map LayoutPos.id).Perm
      ((layoutLevels es cs).map Prod.fst) := by
  rw [layout_eq_flatten, List.map_flatten, List.map_map]
  have hcongr : (layoutGroups es cs).map (List.map LayoutPos.id ∘ fun g => placeGroup g.1 g.2) =
      (layoutGroups es cs).map Prod.snd := by
    apply List.map_congr_left
    intro g _
    show (placeGroup g.1 g.2).map LayoutPos.id = g.2
    exact placeGroup_map_id g.1 g.2
  rw [hcongr]
  exact (((layoutGroups_perm es cs).map Prod.snd).flatten).trans
    (groupsOf_flatten_perm (layoutLevels es cs))

theorem layout_count (es : List CanvasElement) (cs : List Connection) (i : String) :
    ((calculateHierarchicalLayout es cs).map LayoutPos.id).count i =
      if i ∈ es.map CanvasElement.id then 1 else 0 := by
  rw [(layout_ids_perm es cs).count_eq]
  by_cases h : i ∈ es.map CanvasElement.id
  · rw [if_pos h]
    exact List.count_eq_one_of_mem (layoutLevels_nodup es cs)
      ((layoutLevels_mem_keys es cs i).mpr h)
  · rw [if_neg h]
    exact List.count_eq_zero_of_not_mem
      (fun hc => h ((layoutLevels_mem_keys es cs i).mp hc))

/-! ### Claims -/

/-- C1: for every finite list of input nodes and every list of edges (including
edges with dangling endpoints and self-loops), `calculateHierarchicalLayout`
returns without throwing a result containing exactly one (x, y) entry for each
input node identifier and no entry for any identifier outside the input node
set; for the empty node list it returns the empty result. -/
theorem C1_layout_totality :
    (∀ (es : List CanvasElement) (cs : List Connection) (i : String),
      ((calculateHierarchicalLayout es cs).map LayoutPos.id).count i =
        if i ∈ es.map CanvasElement.id then 1 else 0) ∧
    (∀ cs : List Connection, calculateHierarchicalLayout [] cs = []) :=
  ⟨layout_count, fun _ => rfl⟩

/-- C2: a node is selected as a rank-0 root exactly when it has no `parentId`
and its computed in-degree (counting only edges whose both endpoints exist in
the node set) is zero; and whenever no node qualifies while the node set is
non-empty, the very first node in the input ordering is treated as the sole
root. -/
theorem C2_root_selection (es : List CanvasElement) (cs : List Connection) :
    layoutRoots es cs =
      (if (es.filter (fun el => el.parentId.isNone &&
            decide (inDegreeSpec es cs el.id = 0))).isEmpty && !es.isEmpty
       then es.take 1
       else es.filter (fun el => el.parentId.isNone &&
            decide (inDegreeSpec es cs el.id = 0))) := by
  have hfil : rootCandidates es (inDegreeOf es cs) =
      es.filter (fun el => el.parentId.isNone && decide (inDegreeSpec es cs el.id = 0)) := by
    rw [rootCandidates]
    apply List.filter_congr
    intro el hel
    have hel' : el.id ∈ es.map CanvasElement.id := List.mem_map.mpr ⟨el, hel, rfl⟩
    rw [inDegreeOf_eq_spec es cs el.id hel']
    by_cases h0 : inDegreeSpec es cs el.id = 0
    · simp [h0]
    · simp [h0]
  rw [layoutRoots, rootsOf, hfil]

/-- C3: with duplicate-free node identifiers (the data model's identity
invariant), the ranks computed by the breadth-first traversal satisfy: every
identified root is ranked 0; every node ranked `l + 1` was ranked from an
in-neighbour whose final rank is `l` (the rank of the node from which it was
first discovered, plus one); and the rank object binds each identifier at most
once, so an edge into an already-visited node never revises that node's
rank. -/
theorem C3_bfs_ranks (es : List CanvasElement) (cs : List Connection)
    (h : (es.map CanvasElement.id).Nodup) :
    (∀ r ∈ layoutRoots es cs, getKey (layoutBFS es cs).levels r.id = some 0) ∧
    (∀ i l, getKey (layoutBFS es cs).levels i = some (l + 1) →
      ∃ p, getKey (layoutBFS es cs).levels p = some l ∧
        i ∈ childrenOf (adjOf es cs) p) ∧
    ((layoutBFS es cs).levels.map Prod.fst).Nodup := by
  obtain ⟨hQ, hG⟩ := layoutBFS_master es cs h
  refine ⟨?_, hG, layoutBFS_keys_nodup es cs⟩
  intro r hr
  have hmem : (⟨r.id, 0⟩ : QItem) ∈ initialQueue es cs := List.mem_map.mpr ⟨r, hr, rfl⟩
  exact hQ _ hmem

/-- C3 witness: the invariants instantiated on the concrete chain scenario
`[A, B, C]` with edges `A→B, B→C`. -/
theorem C3_bfs_ranks_witness :
    (∀ r ∈ layoutRoots chainNodes chainEdges,
      getKey (layoutBFS chainNodes chainEdges).levels r.id = some 0) ∧
    (∀ i l, getKey (layoutBFS chainNodes chainEdges).levels i = some (l + 1) →
      ∃ p, getKey (layoutBFS chainNodes chainEdges).levels p = some l ∧
        i ∈ childrenOf (adjOf chainNodes chainEdges) p) ∧
    ((layoutBFS chainNodes chainEdges).levels.map Prod.fst).Nodup :=
  C3_bfs_ranks chainNodes chainEdges (by decide)

/-- C4: for every input — cycles, self-edges, duplicate edges and dangling
edges included — the BFS loop drains its queue completely before the fuel
budget runs out (the `remaining` part of the loop state is empty), and with
duplicate-free node identifiers the loop performs at most one dequeue per
input node. -/
theorem C4_bfs_terminates (es : List CanvasElement) (cs : List Connection) :
    (layoutBFS es cs).remaining = [] ∧
    ((es.map CanvasElement.id).Nodup → (layoutBFS es cs).dequeues ≤ es.length) := by
  refine ⟨layoutBFS_remaining es cs, ?_⟩
  intro h
  have hterm := (bfs_term (adjOf es cs) (es.map CanvasElement.id)
    (fun p c hc => childrenOf_sub es cs p c hc)
    ((initialQueue es cs).length + es.length) [] (initialVisited es cs)
    (initialQueue es cs) 0 (layout_fuel_ok es cs)).2
  rw [layoutBFS]
  refine le_trans hterm ?_
  have hv0 : (initialVisited es cs).toFinset =
      ((initialQueue es cs).map QItem.id).toFinset := by
    ext x
    rw [List.mem_toFinset, List.mem_toFinset]
    exact initialVisited_mem es cs x
  have hsub : ((initialQueue es cs).map QItem.id).toFinset ⊆
      (es.map CanvasElement.id).toFinset := by
    intro x hx
    rw [List.mem_toFinset] at hx
    rw [List.mem_toFinset]
    exact initialQueue_ids_sub es cs x hx
  have hcard1 : ((initialQueue es cs).map QItem.id).toFinset.card =
      (initialQueue es cs).length := by
    rw [List.toFinset_card_of_nodup (initialQueue_ids_nodup es cs h), List.length_map]
  have hcard2 : (es.map CanvasElement.id).toFinset.card = es.length := by
    rw [List.toFinset_card_of_nodup h, List.length_map]
  have huns : unseen (es.map CanvasElement.id) (initialVisited es cs) =
      es.length - (initialQueue es cs).length := by
    rw [unseen, hv0, Finset.card_sdiff hsub, hcard1, hcard2]
  have hle : (initialQueue es cs).length ≤ es.length := by
    have hc := Finset.card_le_card hsub
    rw [hcard1, hcard2] at hc
    exact hc
  omega

/-- C4 witness: the termination facts on the concrete chain scenario. -/
theorem C4_bfs_terminates_witness :
    (layoutBFS chainNodes chainEdges).remaining = [] ∧
    (layoutBFS chainNodes chainEdges).dequeues ≤ chainNodes.length :=
  ⟨(C4_bfs_terminates chainNodes chainEdges).1,
   (C4_bfs_terminates chainNodes chainEdges).2 (by decide)⟩

/-- C5: every input node never reached by the traversal from the identified
roots is assigned rank 0 by the orphan pass; every input node ends up in
exactly one rank bucket; and every input node receives exactly one
coordinate. -/
theorem C5_orphan_rank_zero (es : List CanvasElement) (cs : List Connection) :
    (∀ el ∈ es, getKey (layoutBFS es cs).levels el.id = none →
      getKey (layoutLevels es cs) el.id = some 0) ∧
    (∀ el ∈ es, ∃ l b, ((l, b) ∈ layoutGroups es cs ∧ el.id ∈ b) ∧
      ∀ l' b', (l', b') ∈ layoutGroups es cs → el.id ∈ b' → l' = l ∧ b' = b) ∧
    (∀ el ∈ es, ((calculateHierarchicalLayout es cs).map LayoutPos.id).count el.id = 1) := by
  refine ⟨?_, ?_, ?_⟩
  · intro el hel hnone
    exact fillOrphans_orphan es _ el hel hnone
  · intro el hel
    have hkey : el.id ∈ (layoutLevels es cs).map Prod.fst :=
      (layoutLevels_mem_keys es cs el.id).mpr (List.mem_map.mpr ⟨el, hel, rfl⟩)
    obtain ⟨l, hl⟩ := Option.isSome_iff_exists.mp ((getKey_isSome_iff _ _).mpr hkey)
    obtain ⟨b, hb, hxb⟩ := rank_bucket es cs el.id l hl
    refine ⟨l, b, ⟨hb, hxb⟩, ?_⟩
    intro l' b' hb' hxb'
    have hl' := bucket_rank es cs l' b' el.id hb' hxb'
    have hll : l' = l := by
      rw [hl] at hl'
      injection hl' with h'
      exact h'.symm
    subst hll
    refine ⟨rfl, ?_⟩
    rw [(layoutGroups_bucket es cs l' b' hb').1, (layoutGroups_bucket es cs l' b hb).1]
  · intro el hel
    rw [layout_count, if_pos (List.mem_map.mpr ⟨el, hel, rfl⟩)]

/-- C5 witness: node `B` of the input `[A, B]` with the single self-edge
`B→B` is unreached by the traversal (the sole fallback-free root is `A`),
receives rank 0 from the orphan pass, and gets exactly one coordinate. -/
theorem C5_orphan_rank_zero_witness :
    getKey (layoutLevels [exA, exB] [⟨"B", "B"⟩]) exB.id = some 0 ∧
    ((calculateHierarchicalLayout [exA, exB] [⟨"B", "B"⟩]).map LayoutPos.id).count exB.id = 1 :=
  ⟨(C5_orphan_rank_zero [exA, exB] [⟨"B", "B"⟩]).1 exB (by decide) (by decide),
   (C5_orphan_rank_zero [exA, exB] [⟨"B", "B"⟩]).2.2 exB (by decide)⟩

/-- C6: every returned position has abscissa
`rank * (CARD_WIDTH + HORIZONTAL_GAP)` = `rank * 950` for the node's computed
rank, so all nodes sharing a rank have an identical x-coordinate. -/
theorem C6_column_x (es : List CanvasElement) (cs : List Connection) :
    (∀ p ∈ calculateHierarchicalLayout es cs, ∃ l : Nat,
      getKey (layoutLevels es cs) p.id = some l ∧
      p.x = (l : Int) * (CARD_WIDTH + HORIZONTAL_GAP) ∧ p.x = (l : Int) * 950) ∧
    (∀ p ∈ calculateHierarchicalLayout es cs, ∀ q ∈ calculateHierarchicalLayout es cs,
      getKey (layoutLevels es cs) p.id = getKey (layoutLevels es cs) q.id →
      p.x = q.x) := by
  have key : ∀ p ∈ calculateHierarchicalLayout es cs, ∃ l : Nat,
      getKey (layoutLevels es cs) p.id = some l ∧
      p.x = (l : Int) * (CARD_WIDTH + HORIZONTAL_GAP) ∧ p.x = (l : Int) * 950 := by
    intro p hp
    obtain ⟨l, b, hg, hpb⟩ := mem_layout_elim es cs p hp
    obtain ⟨i, hi, heq⟩ := (mem_placeGroup l b p).mp hpb
    have hid : p.id = b.get ⟨i, hi⟩ := by rw [heq]
    have hx : p.x = (l : Int) * (CARD_WIDTH + HORIZONTAL_GAP) := by rw [heq]
    have hrank : getKey (layoutLevels es cs) p.id = some l :=
      bucket_rank es cs l b p.id hg
        (by rw [hid]; exact List.mem_iff_get.mpr ⟨⟨i, hi⟩, rfl⟩)
    refine ⟨l, hrank, hx, ?_⟩
    rw [hx]
    norm_num [CARD_WIDTH, HORIZONTAL_GAP]
  refine ⟨key, ?_⟩
  intro p hp q hq hrank
  obtain ⟨l1, hl1, _, hx1⟩ := key p hp
  obtain ⟨l2, hl2, _, hx2⟩ := key q hq
  rw [hl1, hl2] at hrank
  injection hrank with h12
  rw [hx1, hx2, h12]

/-- C6 witness: node `B` of the chain scenario sits in column
`rank * 950 = 950`. -/
theorem C6_column_x_witness :
    ∃ l : Nat,
      getKey (layoutLevels chainNodes chainEdges) (⟨"B", 950, -300⟩ : LayoutPos).id = some l ∧
      (⟨"B", 950, -300⟩ : LayoutPos).x = (l : Int) * (CARD_WIDTH + HORIZONTAL_GAP) ∧
      (⟨"B", 950, -300⟩ : LayoutPos).x = (l : Int) * 950 :=
  (C6_column_x chainNodes chainEdges).1 ⟨"B", 950, -300⟩ (by decide)

/-- C7: the i-th node of a rank bucket of k nodes receives
`y = -(k*CARD_HEIGHT + (k-1)*VERTICAL_GAP)/2 + i*(CARD_HEIGHT + VERTICAL_GAP)`;
consequently two distinct nodes sharing a rank have y-coordinates at least
`CARD_HEIGHT + VERTICAL_GAP = 700` apart and never coincide. -/
theorem C7_vertical_stacking (es : List CanvasElement) (cs : List Connection) :
    (∀ l b, (l, b) ∈ layoutGroups es cs → ∀ i, ∀ hi : i < b.length,
      (⟨b.get ⟨i, hi⟩, (l : Int) * (CARD_WIDTH + HORIZONTAL_GAP),
        (-((b.length : Int) * CARD_HEIGHT + ((b.length : Int) - 1) * VERTICAL_GAP)) / 2 +
          (i : Int) * (CARD_HEIGHT + VERTICAL_GAP)⟩ : LayoutPos) ∈
        calculateHierarchicalLayout es cs) ∧
    (∀ p ∈ calculateHierarchicalLayout es cs, ∀ q ∈ calculateHierarchicalLayout es cs,
      p.id ≠ q.id → getKey (layoutLevels es cs) p.id = getKey (layoutLevels es cs) q.id →
      700 ≤ (p.y - q.y).natAbs ∧ p.y ≠ q.y) := by
  constructor
  · intro l b hg i hi
    exact mem_layout_intro es cs l b _ hg ((mem_placeGroup l b _).mpr ⟨i, hi, rfl⟩)
  · intro p hp q hq hne hrank
    obtain ⟨l1, b1, hg1, hpb1⟩ := mem_layout_elim es cs p hp
    obtain ⟨l2, b2, hg2, hqb2⟩ := mem_layout_elim es cs q hq
    obtain ⟨i, hi, hpeq⟩ := (mem_placeGroup _ _ _).mp hpb1
    obtain ⟨j, hj, hqeq⟩ := (mem_placeGroup _ _ _).mp hqb2
    have hpid : p.id = b1.get ⟨i, hi⟩ := by rw [hpeq]
    have hqid : q.id = b2.get ⟨j, hj⟩ := by rw [hqeq]
    have hr1 : getKey (layoutLevels es cs) p.id = some l1 :=
      bucket_rank es cs l1 b1 p.id hg1
        (by rw [hpid]; exact List.mem_iff_get.mpr ⟨⟨i, hi⟩, rfl⟩)
    have hr2 : getKey (layoutLevels es cs) q.id = some l2 :=
      bucket_rank es cs l2 b2 q.id hg2
        (by rw [hqid]; exact List.mem_iff_get.mpr ⟨⟨j, hj⟩, rfl⟩)
    have hl12 : l1 = l2 := by
      rw [hr1, hr2] at hrank
      injection hrank
    subst hl12
    have hb12 : b1 = b2 := by
      rw [(layoutGroups_bucket es cs l1 b1 hg1).1, (layoutGroups_bucket es cs l1 b2 hg2).1]
    subst hb12
    have hij : i ≠ j := by
      intro hij
      apply hne
      have hfin : (⟨i, hi⟩ : Fin b1.length) = ⟨j, hj⟩ := Fin.ext hij
      rw [hpid, hqid, hfin]
    have hpy : p.y =
        (-((b1.length : Int) * CARD_HEIGHT + ((b1.length : Int) - 1) * VERTICAL_GAP)) / 2 +
          (i : Int) * (CARD_HEIGHT + VERTICAL_GAP) := by rw [hpeq]
    have hqy : q.y =
        (-((b1.length : Int) * CARD_HEIGHT + ((b1.length : Int) - 1) * VERTICAL_GAP)) / 2 +
          (j : Int) * (CARD_HEIGHT + VERTICAL_GAP) := by rw [hqeq]
    have hsub : p.y - q.y = ((i : Int) - (j : Int)) * 700 := by
      rw [hpy, hqy]
      simp only [CARD_HEIGHT, VERTICAL_GAP]
      ring
    have hd : ((i : Int) - (j : Int)) ≠ 0 := by
      intro h0
      apply hij
      omega
    constructor
    · rw [hsub]
      omega
    · intro heq
      rw [heq] at hsub
      omega

/-- C7 witness: in the fork scenario (`A→B, A→C`), nodes `B` and `C` share
rank 1 and their y-coordinates differ by 700. -/
theorem C7_vertical_stacking_witness :
    700 ≤ ((⟨"B", 950, -650⟩ : LayoutPos).y - (⟨"C", 950, 50⟩ : LayoutPos).y).natAbs ∧
    (⟨"B", 950, -650⟩ : LayoutPos).y ≠ (⟨"C", 950, 50⟩ : LayoutPos).y :=
  (C7_vertical_stacking chainNodes forkEdges).2 ⟨"B", 950, -650⟩ (by decide)
    ⟨"C", 950, 50⟩ (by decide) (by decide) (by decide)

/-- C8 counterexample: on the chain scenario `[A, B, C]`, `A→B, B→C`, the code
does not place the nodes at y = 0: a single-node column has totalHeight = 600
and startY = -300, so every node of the chain gets y = -300, contradicting the
claim that each of the three nodes is at y = 0. -/
theorem C8_chain_counterexample :
    calculateHierarchicalLayout chainNodes chainEdges =
      [⟨"A", 0, -300⟩, ⟨"B", 950, -300⟩, ⟨"C", 1900, -300⟩] ∧
    ¬ (∀ p ∈ calculateHierarchicalLayout chainNodes chainEdges, p.y = 0) := by
  decide

/-- C8 amended: the chain scenario places A at rank 0 (x = 0), B at rank 1
(x = 950), C at rank 2 (x = 1900), and each single-node column at y = -300
(the column's 600-unit extent is centred on the origin, so the node anchor
sits at -CARD_HEIGHT/2, not at 0). -/
theorem C8_chain_layout :
    calculateHierarchicalLayout chainNodes chainEdges =
      [⟨"A", 0, -300⟩, ⟨"B", 950, -300⟩, ⟨"C", 1900, -300⟩] ∧
    getKey (layoutLevels chainNodes chainEdges) "A" = some 0 ∧
    getKey (layoutLevels chainNodes chainEdges) "B" = some 1 ∧
    getKey (layoutLevels chainNodes chainEdges) "C" = some 2 := by
  decide

/-- C10: a self-edge whose endpoints are both in the node set increments the
node's own in-degree, so a node with a self-loop is never a root candidate;
in particular, for the single node `X` with the single edge `X→X`, the
fallback selects `X` as the sole root and the result assigns `X` rank 0 at
x = 0 with exactly one coordinate. -/
theorem C10_selfloop :
    (∀ (es : List CanvasElement) (cs : List Connection) (el : CanvasElement) (c : Connection),
      el ∈ es → c ∈ cs → c.fromId = el.id → c.toId = el.id →
      (∃ d, getKey (inDegreeOf es cs) el.id = some d ∧ 1 ≤ d) ∧
      el ∉ rootCandidates es (inDegreeOf es cs)) ∧
    layoutRoots [exX] selfLoopEdges = [exX] ∧
    getKey (layoutLevels [exX] selfLoopEdges) "X" = some 0 ∧
    calculateHierarchicalLayout [exX] selfLoopEdges = [⟨"X", 0, -300⟩] := by
  refine ⟨?_, by decide, by decide, by decide⟩
  intro es cs el c hel hc hfrom hto
  have hel' : el.id ∈ es.map CanvasElement.id := List.mem_map.mpr ⟨el, hel, rfl⟩
  have hspec := inDegreeOf_eq_spec es cs el.id hel'
  have hpos : 1 ≤ inDegreeSpec es cs el.id := by
    rw [inDegreeSpec]
    have hcmem : c ∈ cs.filter (fun c =>
        decide (c.fromId ∈ es.map CanvasElement.id) &&
        decide (c.toId ∈ es.map CanvasElement.id) && decide (c.toId = el.id)) := by
      apply List.mem_filter.mpr
      refine ⟨hc, ?_⟩
      rw [hfrom, hto]
      simp [hel']
    exact List.length_pos.mpr (List.ne_nil_of_mem hcmem)
  refine ⟨⟨inDegreeSpec es cs el.id, hspec, hpos⟩, ?_⟩
  intro hmem
  obtain ⟨_, hcond⟩ := List.mem_filter.mp hmem
  rw [hspec] at hcond
  simp at hcond
  have h0 := hcond.2
  omega

/-- C10 witness: the general self-loop facts instantiated at the single node
`X` with the edge `X→X`. -/
theorem C10_selfloop_witness :
    (∃ d, getKey (inDegreeOf [exX] selfLoopEdges) exX.id = some d ∧ 1 ≤ d) ∧
    exX ∉ rootCandidates [exX] (inDegreeOf [exX] selfLoopEdges) :=
  C10_selfloop.1 [exX] selfLoopEdges exX ⟨"X", "X"⟩ (by decide) (by decide) rfl rfl

namespace RenderManager

/-- C9: in every reachable state of the render manager at most one queue-drain
loop is active; the `isProcessing` flag is exactly the indicator of one loop
being active (so a `processQueue` call made while a drain runs gets past the
guard of no new loop), and the executed log followed by the pending queue is
the full arrival sequence — queued work is executed by that single loop in
FIFO arrival order. -/
theorem C9_single_drain (s : RMState) (h : Reachable s) :
    s.active ≤ 1 ∧ (s.isProcessing = true ↔ s.active = 1) ∧
    s.executed ++ s.queue = s.arrived := by
  induction h with
  | refl => exact ⟨by decide, by decide, rfl⟩
  | @tail b c hab hbc ih =>
    obtain ⟨ih1, ih2, ih3⟩ := ih
    cases hbc with
    | enqueue t =>
      refine ⟨ih1, ih2, ?_⟩
      show b.executed ++ (b.queue ++ [t]) = b.arrived ++ [t]
      rw [← List.append_assoc, ih3]
    | startDrain hp hq =>
      have hne1 : b.active ≠ 1 := by
        intro h1
        have htrue := ih2.mpr h1
        rw [hp] at htrue
        cases htrue
      have h0 : b.active = 0 := by omega
      refine ⟨by simp [h0], by simp [h0], ih3⟩
    | execTask t rest ha hq =>
      refine ⟨ih1, ih2, ?_⟩
      rw [hq] at ih3
      show (b.executed ++ [t]) ++ rest = b.arrived
      rw [List.append_assoc, List.singleton_append, ih3]
    | endDrain ha hq =>
      have h1 : b.active = 1 := by omega
      refine ⟨by simp [h1], by simp [h1], ih3⟩

/-- C9 witness: the drain invariant evaluated at the concrete reachable state
obtained by queueing one task and starting a drain. -/
theorem C9_single_drain_witness :
    (⟨true, 1, [7], [], [7]⟩ : RMState).active ≤ 1 ∧
    ((⟨true, 1, [7], [], [7]⟩ : RMState).isProcessing = true ↔
      (⟨true, 1, [7], [], [7]⟩ : RMState).active = 1) ∧
    (⟨true, 1, [7], [], [7]⟩ : RMState).executed ++
      (⟨true, 1, [7], [], [7]⟩ : RMState).queue =
      (⟨true, 1, [7], [], [7]⟩ : RMState).arrived :=
  C9_single_drain _ (Relation.ReflTransGen.tail
    (Relation.ReflTransGen.tail Relation.ReflTransGen.refl (Step.enqueue init 7))
    (Step.startDrain _ rfl (by decide)))

end RenderManager

end CanvasFlow
